import Mathlib

/-!
Verification of the docs_organiser core: the context/token-budget manager,
the categorization engine's reply validation and retry loop, the map-reduce
summarizer, and the pipeline's per-file counter updates.  Go code is shallowly
embedded: strings are Lean `String`s manipulated as character lists, Go `int`
values that are always non-negative token counts become `Nat`, `float64`
JSON numbers become `Rat` (only their sign and small decimal literals matter
to the properties below, where the two agree), and network calls become
explicit oracles.  Loops whose termination is not structural carry an explicit
fuel argument so that every definition stays executable; wrappers supply fuel
that provably suffices, and exhausted fuel (`none`) models divergence of the
corresponding Go loop.
-/

namespace DocsOrganiser

/-! ### Character-list primitives modelling Go's strings package -/

/-- Character used for the JSON/Go double quote, kept symbolic. -/
def quoteCh : Char := Char.ofNat 34

/-- Backslash character. -/
def backslashCh : Char := Char.ofNat 92

/-- Opening curly brace character. -/
def obraceCh : Char := Char.ofNat 123

/-- Closing curly brace character. -/
def cbraceCh : Char := Char.ofNat 125

/-- Does `p` occur at the head of `l`?  (Go `strings.HasPrefix` on the rest.) -/
def leadsWith : List Char → List Char → Bool
  | [], _ => true
  | _ :: _, [] => false
  | p :: ps, c :: cs => p = c && leadsWith ps cs

/-- Go `strings.Contains`: does `pat` occur contiguously inside `l`? -/
def hasSub (pat : List Char) : List Char → Bool
  | [] => leadsWith pat []
  | c :: cs => leadsWith pat (c :: cs) || hasSub pat cs

/-- Go `strings.TrimPrefix`. -/
def stripLead (pat l : List Char) : List Char :=
  if leadsWith pat l then l.drop pat.length else l

/-- Does `pat` occur at the end of `l`? -/
def endsWith (pat l : List Char) : Bool := leadsWith pat.reverse l.reverse

/-- Go `strings.TrimSuffix`. -/
def stripTrail (pat l : List Char) : List Char :=
  if endsWith pat l then l.take (l.length - pat.length) else l

/-- Go `unicode.IsSpace` restricted to the code points that can occur in the
data handled here (ASCII whitespace plus NEL and NBSP). -/
def goIsSpace (c : Char) : Bool :=
  c = ' ' || c = '\t' || c = '\n' || c = '\r' ||
  c = Char.ofNat 11 || c = Char.ofNat 12 || c = Char.ofNat 133 || c = Char.ofNat 160

/-- Drop trailing characters satisfying `p`. -/
def dropTrailWhile (p : Char → Bool) (l : List Char) : List Char :=
  (l.reverse.dropWhile p).reverse

/-- Go `strings.TrimSpace`. -/
def trimSpace (l : List Char) : List Char :=
  dropTrailWhile goIsSpace (l.dropWhile goIsSpace)

/-- Go `strings.Trim` with an explicit cutset. -/
def trimCut (cut : List Char) (l : List Char) : List Char :=
  dropTrailWhile (fun c => cut.contains c) (l.dropWhile (fun c => cut.contains c))

/-- One fuelled pass of Go `strings.ReplaceAll`: replace non-overlapping
occurrences of `pat` by `rep`, scanning left to right.  The wrapper
`replaceAll` supplies fuel equal to the list length, which suffices because
every step consumes at least one character (all uses have `pat ≠ []`). -/
def replFuel (pat rep : List Char) : Nat → List Char → List Char
  | 0, l => l
  | _ + 1, [] => []
  | f + 1, c :: cs =>
    if leadsWith pat (c :: cs) then rep ++ replFuel pat rep f (cs.drop (pat.length - 1))
    else c :: replFuel pat rep f cs

/-- Go `strings.ReplaceAll`. -/
def replaceAll (l pat rep : List Char) : List Char :=
  replFuel pat rep l.length l

/-- The Go loop `for strings.Contains(result, pat) { result =
strings.ReplaceAll(result, pat, rep) }`, fuelled.  For the collapsing uses
(`pat = [a,a]`, `rep = [a]`) each iteration strictly shrinks the list, so
fuel equal to the initial length suffices. -/
def collapseFuel (pat rep : List Char) : Nat → List Char → List Char
  | 0, l => l
  | f + 1, l =>
    if hasSub pat l then collapseFuel pat rep f (replaceAll l pat rep) else l

/-- Wrapper for the collapse loop with provably sufficient fuel. -/
def collapseAll (l pat rep : List Char) : List Char :=
  collapseFuel pat rep l.length l

/-! ### Sanitization (internal/ai: SanitizeFilename, SanitizeCategory) -/

/-- The character filter of the `SanitizeFilename` builder loop:
alphanumeric, underscore, hyphen, dot and space survive. -/
def fileAllowed (r : Char) : Bool :=
  ('a' ≤ r && r ≤ 'z') || ('A' ≤ r && r ≤ 'Z') || ('0' ≤ r && r ≤ '9') ||
  r = '_' || r = '-' || r = '.' || r = ' '

/-- The character filter of the `SanitizeCategory` builder loop: as for
filenames but the forward slash also survives. -/
def catAllowed (r : Char) : Bool := fileAllowed r || r = '/'

/-- `SanitizeFilename` from the source: replace path-unsafe characters by
underscore, filter to the allowed set, trim whitespace, collapse doubled
underscores, trim edge dot/space/underscore, and fall back to "unnamed". -/
def SanitizeFilename (s : String) : String :=
  let l1 := replaceAll s.data ['/'] ['_']
  let l2 := replaceAll l1 [backslashCh] ['_']
  let l3 := replaceAll l2 [':'] ['_']
  let l4 := replaceAll l3 ['*'] ['_']
  let l5 := replaceAll l4 ['?'] ['_']
  let l6 := replaceAll l5 [quoteCh] ['_']
  let l7 := replaceAll l6 ['<'] ['_']
  let l8 := replaceAll l7 ['>'] ['_']
  let l9 := replaceAll l8 ['|'] ['_']
  let built := l9.map (fun r => if fileAllowed r then r else '_')
  let t := trimSpace built
  let collapsed := collapseAll t ['_', '_'] ['_']
  let trimmed := trimCut ['.', ' ', '_'] collapsed
  if trimmed = [] then "unnamed" else String.mk trimmed

/-- `SanitizeCategory` from the source: like `SanitizeFilename` but the
forward slash is kept for nested category paths, doubled slashes are also
collapsed, and the edge trim additionally removes slashes. -/
def SanitizeCategory (s : String) : String :=
  let l2 := replaceAll s.data [backslashCh] ['_']
  let l3 := replaceAll l2 [':'] ['_']
  let l4 := replaceAll l3 ['*'] ['_']
  let l5 := replaceAll l4 ['?'] ['_']
  let l6 := replaceAll l5 [quoteCh] ['_']
  let l7 := replaceAll l6 ['<'] ['_']
  let l8 := replaceAll l7 ['>'] ['_']
  let l9 := replaceAll l8 ['|'] ['_']
  let built := l9.map (fun r => if catAllowed r then r else '_')
  let t := trimSpace built
  let collapsed := collapseAll t ['_', '_'] ['_']
  let collapsed2 := collapseAll collapsed ['/', '/'] ['/']
  let trimmed := trimCut ['.', ' ', '_', '/'] collapsed2
  if trimmed = [] then "unnamed" else String.mk trimmed

/-! ### Tokenizer and context manager (internal/ai: context_manager) -/

/-- The external tokenizer, used only through Encode/Decode/Count. -/
structure Tokenizer where
  encode : String → List Nat
  decode : List Nat → String

/-- `Tokenizer.CountTokens`. -/
def Tokenizer.CountTokens (t : Tokenizer) (s : String) : Nat :=
  (t.encode s).length

/-- Truncation strategies of the context manager. -/
inductive TruncationStrategy
  | slidingWindow
  | middleExtraction
  | mapReduce
deriving DecidableEq

/-- The context manager.  `maxTokens` stores the effective ceiling: the
constructor substitutes 4096 for a non-positive argument. -/
structure ContextManager where
  tokenizer : Tokenizer
  maxTokens : Nat

/-- `NewContextManager`: a non-positive `maxTokens` is replaced by the
default ceiling 4096. -/
def NewContextManager (tok : Tokenizer) (maxTokens : Int) : ContextManager :=
  { tokenizer := tok
    maxTokens := if maxTokens ≤ 0 then 4096 else maxTokens.toNat }

/-- `GetBudgets`: the Go code computes `int(float64(m) * p)` for the fixed
fractions 0.10, 0.20, 0.60, 0.10.  For every `m` in the range a context
ceiling can take (far below 2^50) the float computation equals the exact
rational floor, so the budgets are embedded as `m/10`, `m/5`, `3*m/5`,
`m/10` in natural-number division. -/
def ContextManager.GetBudgets (cm : ContextManager) : Nat × Nat × Nat × Nat :=
  (cm.maxTokens / 10, cm.maxTokens / 5, 3 * cm.maxTokens / 5, cm.maxTokens / 10)

/-- `slidingWindow`: keep the first `limit/2` and the last `limit - limit/2`
tokens, decode each half, join with the literal marker. -/
def ContextManager.slidingWindowFn (cm : ContextManager) (tokens : List Nat)
    (limit : Nat) : String :=
  let headSize := limit / 2
  let tailSize := limit - headSize
  cm.tokenizer.decode (tokens.take headSize) ++ "\n[... truncated ...]\n" ++
    cm.tokenizer.decode (tokens.drop (tokens.length - tailSize))

/-- `middleExtraction`: keep the first `int(float64(limit)*0.4)` and the last
`limit - headSize` tokens (the float computation equals `2*limit/5` on the
whole realistic range), join with the literal marker. -/
def ContextManager.middleExtractionFn (cm : ContextManager) (tokens : List Nat)
    (limit : Nat) : String :=
  let headSize := 2 * limit / 5
  let tailSize := limit - headSize
  cm.tokenizer.decode (tokens.take headSize) ++ "\n[... content extracted ...]\n" ++
    cm.tokenizer.decode (tokens.drop (tokens.length - tailSize))

/-- `ContextManager.Truncate`: unchanged text when it already fits, otherwise
the selected strategy; the switch falls through to the sliding window for
every strategy other than middle extraction. -/
def ContextManager.Truncate (cm : ContextManager) (text : String) (limit : Nat)
    (strategy : TruncationStrategy) : String :=
  let tokens := cm.tokenizer.encode text
  if tokens.length ≤ limit then text
  else
    match strategy with
    | .middleExtraction => cm.middleExtractionFn tokens limit
    | _ => cm.slidingWindowFn tokens limit

/-- The body of the `Chunk` loop `for i := 0; i < len(tokens); i += chunkSize`,
fuelled.  `none` models non-termination of the Go loop (which happens exactly
when `chunkSize = 0` and tokens remain, since `i` then never advances). -/
def chunkLoop (cm : ContextManager) (tokens : List Nat) (chunkSize : Nat) :
    Nat → Nat → List String → Option (List String)
  | 0, _, _ => none
  | f + 1, i, acc =>
    if i < tokens.length then
      let e := min (i + chunkSize) tokens.length
      chunkLoop cm tokens chunkSize f (i + chunkSize)
        (acc ++ [cm.tokenizer.decode ((tokens.take e).drop i)])
    else some acc

/-- `ContextManager.Chunk`: single-element result when the text already fits,
otherwise the decoded consecutive windows.  The result is `none` exactly when
the Go loop would never terminate. -/
def ContextManager.Chunk (cm : ContextManager) (text : String) (chunkSize : Nat) :
    Option (List String) :=
  let tokens := cm.tokenizer.encode text
  if tokens.length ≤ chunkSize then some [text]
  else chunkLoop cm tokens chunkSize (tokens.length + 1) 0 []

/-- Specification-side windowing: consecutive windows of at most `k` tokens,
final window possibly shorter.  Fuel equal to the list length suffices for
`k ≥ 1`. -/
def windowsFuel (k : Nat) : Nat → List Nat → List (List Nat)
  | 0, _ => []
  | _ + 1, [] => []
  | f + 1, l => l.take k :: windowsFuel k f (l.drop k)

/-- Consecutive token windows of size at most `k` (specification side). -/
def windows (k : Nat) (l : List Nat) : List (List Nat) :=
  windowsFuel k l.length l

/-! ### JSON values and the Go `encoding/json` decoder

The engine decodes replies with `json.Decoder.Decode` into the three-field
`AnalysisResult` struct with `DisallowUnknownFields`, followed by a second
`Decode` that must hit EOF.  The embedding parses the reply into a JSON value
tree with the RFC 8259 grammar that `encoding/json` implements (duplicate
keys are processed in order exactly as the streaming decoder does) and then
replays Go's struct-field assignment on the field list. -/

/-- An exact decimal: the value `mantissa * 10 ^ exp10`.  JSON numbers are
carried in this form (it reduces in the kernel, unlike rational
arithmetic); Go stores them in a `float64`, and on the sign test
`confidenceScore <= 0` — the only use the code makes of the magnitude —
the two agree. -/
structure JNum where
  mantissa : Int
  exp10 : Int
deriving DecidableEq

/-- The rational value of an exact decimal, for the statements. -/
def JNum.toRat (n : JNum) : ℚ := (n.mantissa : ℚ) * (10 : ℚ) ^ n.exp10

/-- JSON value tree. -/
inductive JValue where
  | null
  | bool (b : Bool)
  | num (n : JNum)
  | str (s : String)
  | arr (elems : List JValue)
  | obj (fields : List (String × JValue))

/-- JSON insignificant whitespace. -/
def jsonWs (c : Char) : Bool :=
  c = ' ' || c = '\t' || c = '\n' || c = '\r'

/-- Skip JSON whitespace. -/
def skipWs (l : List Char) : List Char := l.dropWhile jsonWs

/-- Decimal digit test. -/
def isDigitCh (c : Char) : Bool := '0' ≤ c && c ≤ '9'

/-- Digits to a natural number. -/
def digitsToNat (l : List Char) : Nat :=
  l.foldl (fun n c => 10 * n + (c.toNat - 48)) 0

/-- Hex digit value. -/
def hexVal (c : Char) : Option Nat :=
  if '0' ≤ c && c ≤ '9' then some (c.toNat - 48)
  else if 'a' ≤ c && c ≤ 'f' then some (c.toNat - 87)
  else if 'A' ≤ c && c ≤ 'F' then some (c.toNat - 55)
  else none

/-- Body of a JSON string after the opening quote: returns the decoded
characters and the input following the closing quote.  Raw control
characters are rejected, the standard escapes are decoded, and a `\\u`
escape denoting an invalid scalar value becomes U+FFFD as Go does for
unpaired surrogates (surrogate-pair combination is not modelled; no input
relevant to the claims uses `\\u` at all). -/
def strBody : Nat → List Char → Option (List Char × List Char)
  | 0, _ => none
  | _ + 1, [] => none
  | f + 1, c :: cs =>
    if c = quoteCh then some ([], cs)
    else if c = backslashCh then
      match cs with
      | [] => none
      | e :: cs2 =>
        if e = quoteCh then (strBody f cs2).map (fun p => (quoteCh :: p.1, p.2))
        else if e = backslashCh then (strBody f cs2).map (fun p => (backslashCh :: p.1, p.2))
        else if e = '/' then (strBody f cs2).map (fun p => ('/' :: p.1, p.2))
        else if e = 'b' then (strBody f cs2).map (fun p => (Char.ofNat 8 :: p.1, p.2))
        else if e = 'f' then (strBody f cs2).map (fun p => (Char.ofNat 12 :: p.1, p.2))
        else if e = 'n' then (strBody f cs2).map (fun p => ('\n' :: p.1, p.2))
        else if e = 'r' then (strBody f cs2).map (fun p => ('\r' :: p.1, p.2))
        else if e = 't' then (strBody f cs2).map (fun p => ('\t' :: p.1, p.2))
        else if e = 'u' then
          match cs2 with
          | h1 :: h2 :: h3 :: h4 :: cs3 =>
            match hexVal h1, hexVal h2, hexVal h3, hexVal h4 with
            | some a, some b, some c3, some d =>
              let v := ((a * 16 + b) * 16 + c3) * 16 + d
              let ch := if v < 55296 ∨ (57343 < v) then Char.ofNat v else Char.ofNat 65533
              (strBody f cs3).map (fun p => (ch :: p.1, p.2))
            | _, _, _, _ => none
          | _ => none
        else none
    else if c.toNat < 32 then none
    else (strBody f cs).map (fun p => (c :: p.1, p.2))

/-- JSON number per the RFC grammar Go implements: optional minus, integer
part without leading zeros, optional fraction, optional exponent.  Returns
the exact decimal value and the rest of the input. -/
def parseNum (l : List Char) : Option (JNum × List Char) :=
  let (neg, r1) : Bool × List Char :=
    match l with
    | c :: cs => if c = '-' then (true, cs) else (false, l)
    | [] => (false, l)
  match r1 with
  | [] => none
  | d :: ds =>
    if ¬ isDigitCh d then none
    else
      let intPart : List Char × List Char :=
        if d = '0' then ([d], ds)
        else (d :: ds.takeWhile isDigitCh, ds.dropWhile isDigitCh)
      let (intDigits, r2) := intPart
      let leadZero : Bool := d = '0' && (match ds with | e :: _ => isDigitCh e | [] => false)
      -- Go rejects a leading zero followed by more digits
      if leadZero then none
      else
        let fracStep : Option (List Char × List Char) :=
          match r2 with
          | p :: rest =>
            if p = '.' then
              match rest.takeWhile isDigitCh with
              | [] => none
              | fd => some (fd, rest.dropWhile isDigitCh)
            else some ([], r2)
          | [] => some ([], r2)
        match fracStep with
        | none => none
        | some (fracDigits, r3) =>
          let expStep : Option (Int × List Char) :=
            match r3 with
            | p :: rest =>
              if p = 'e' ∨ p = 'E' then
                let (eneg, r4) : Bool × List Char :=
                  match rest with
                  | q :: qs =>
                    if q = '-' then (true, qs)
                    else if q = '+' then (false, qs)
                    else (false, rest)
                  | [] => (false, rest)
                match r4.takeWhile isDigitCh with
                | [] => none
                | ed =>
                  let n : Int := Int.ofNat (digitsToNat ed)
                  some (if eneg then -n else n, r4.dropWhile isDigitCh)
              else some (0, r3)
            | [] => some (0, r3)
          match expStep with
          | none => none
          | some (e, r5) =>
            let mantissa : Int := Int.ofNat (digitsToNat (intDigits ++ fracDigits))
            let mantissa := if neg then -mantissa else mantissa
            let exponent : Int := e - Int.ofNat fracDigits.length
            some ({ mantissa := mantissa, exp10 := exponent }, r5)


/-- Requests of the recursive-descent JSON reader: one value, the members of
an object after its opening brace, or the elements of an array after its
opening bracket (`first` is true until a member or element has been read). -/
inductive PReq
  | pv
  | pobj (first : Bool)
  | parr (first : Bool)

/-- Results of the reader, one per request kind. -/
inductive POut
  | v (x : JValue)
  | fs (x : List (String × JValue))
  | es (x : List JValue)

/-- The fuelled recursive-descent reader for the JSON grammar Go's decoder
implements, written as one structurally recursive function over the three
request kinds.  Objects accept a closing brace only before the first member
or right after a member (so a trailing comma is a syntax error), keys must
be quoted strings followed by a colon, and duplicate keys are kept in
order.  The wrappers supply fuel exceeding the input length, which suffices
because every recursive call first consumes at least one character. -/
def parseGo : Nat → PReq → List Char → Option (POut × List Char)
  | 0, _, _ => none
  | f + 1, .pv, l =>
    match skipWs l with
    | [] => none
    | c :: cs =>
      if c = obraceCh then
        match parseGo f (.pobj true) cs with
        | some (.fs x, r) => some (.v (.obj x), r)
        | _ => none
      else if c = '[' then
        match parseGo f (.parr true) cs with
        | some (.es x, r) => some (.v (.arr x), r)
        | _ => none
      else if c = quoteCh then
        (strBody (cs.length + 1) cs).map (fun p => (.v (.str (String.mk p.1)), p.2))
      else if c = 't' then
        if leadsWith ['r', 'u', 'e'] cs then some (.v (.bool true), cs.drop 3) else none
      else if c = 'f' then
        if leadsWith ['a', 'l', 's', 'e'] cs then some (.v (.bool false), cs.drop 4)
        else none
      else if c = 'n' then
        if leadsWith ['u', 'l', 'l'] cs then some (.v .null, cs.drop 3) else none
      else (parseNum (c :: cs)).map (fun p => (.v (.num p.1), p.2))
  | f + 1, .pobj first, l =>
    match skipWs l with
    | [] => none
    | c :: cs =>
      if c = cbraceCh ∧ first then some (.fs [], cs)
      else if c = quoteCh then
        match strBody (cs.length + 1) cs with
        | none => none
        | some (key, r1) =>
          match skipWs r1 with
          | colon :: r2 =>
            if colon = ':' then
              match parseGo f .pv r2 with
              | some (.v v, r3) =>
                (match skipWs r3 with
                 | p :: r4 =>
                   if p = ',' then
                     match parseGo f (.pobj false) r4 with
                     | some (.fs fs2, r5) => some (.fs ((String.mk key, v) :: fs2), r5)
                     | _ => none
                   else if p = cbraceCh then some (.fs [(String.mk key, v)], r4)
                   else none
                 | [] => none)
              | _ => none
            else none
          | [] => none
      else none
  | f + 1, .parr first, l =>
    match skipWs l with
    | [] => none
    | c :: cs =>
      if c = ']' ∧ first then some (.es [], cs)
      else
        match parseGo f .pv (c :: cs) with
        | some (.v v, r1) =>
          (match skipWs r1 with
           | p :: r2 =>
             if p = ',' then
               match parseGo f (.parr false) r2 with
               | some (.es vs, r3) => some (.es (v :: vs), r3)
               | _ => none
             else if p = ']' then some (.es [v], r2)
             else none
           | [] => none)
        | _ => none

/-- Parse one JSON value from the start of the text, as the first
`Decoder.Decode` call does; returns the value and the unconsumed rest. -/
def jparseTop (l : List Char) : Option (JValue × List Char) :=
  match parseGo (l.length + 1) .pv l with
  | some (.v x, r) => some (x, r)
  | _ => none

/-! ### The analysis result and Go struct decoding -/

/-- `AnalysisResult`: the three-field wire schema (tag `confidence_score`).
The confidence is kept as the exact decimal the reply carried. -/
structure AnalysisResult where
  category : String
  title : String
  confidenceScore : JNum
deriving DecidableEq

/-- The zero value a fresh `AnalysisResult` holds before decoding. -/
def zeroResult : AnalysisResult :=
  { category := "", title := "", confidenceScore := { mantissa := 0, exp10 := 0 } }

/-- ASCII case fold, modelling `strings.EqualFold` on the field names in
play (which are ASCII). -/
def foldChar (c : Char) : Char :=
  if 'A' ≤ c ∧ c ≤ 'Z' then Char.ofNat (c.toNat + 32) else c

/-- Case-insensitive key equality used by Go's field matching. -/
def foldEq (a b : List Char) : Bool :=
  a.map foldChar = b.map foldChar

/-- The struct field a JSON key resolves to, if any.  Go matches the JSON
tag exactly first and case-insensitively otherwise; `DisallowUnknownFields`
errors on keys matching no field. -/
inductive FieldTag | cat | ttl | score
deriving DecidableEq

/-- Resolve a JSON object key against the `AnalysisResult` fields. -/
def fieldFor (k : String) : Option FieldTag :=
  if foldEq k.data "category".data then some .cat
  else if foldEq k.data "title".data then some .ttl
  else if foldEq k.data "confidence_score".data then some .score
  else none

/-- Assign one JSON member value to its resolved struct field as Go does:
a string goes into `category` or `title`, a number into the confidence,
`null` leaves the field untouched, and any other value type is an error. -/
def assignField (acc : AnalysisResult) : FieldTag → JValue → Except String AnalysisResult
  | .cat, .str s => .ok { acc with category := s }
  | .cat, .null => .ok acc
  | .cat, _ => .error "json: cannot unmarshal value into field category of type string"
  | .ttl, .str s => .ok { acc with title := s }
  | .ttl, .null => .ok acc
  | .ttl, _ => .error "json: cannot unmarshal value into field title of type string"
  | .score, .num q => .ok { acc with confidenceScore := q }
  | .score, .null => .ok acc
  | .score, _ =>
    .error "json: cannot unmarshal value into field confidence_score of type float64"

/-- Replay Go's field assignment over the members in order: unknown keys are
errors, a mistyped value is an error even when a later duplicate would
overwrite it, and the last value wins. -/
def goDecodeFields : AnalysisResult → List (String × JValue) → Except String AnalysisResult
  | acc, [] => .ok acc
  | acc, (k, v) :: rest =>
    match fieldFor k with
    | none => .error ("json: unknown field " ++ k)
    | some tag =>
      match assignField acc tag v with
      | .error e => .error e
      | .ok acc2 => goDecodeFields acc2 rest

/-- Decode one JSON value into the struct: `null` leaves the zero value,
an object assigns fields, anything else is a type error. -/
def goDecodeValue : JValue → Except String AnalysisResult
  | .null => .ok zeroResult
  | .obj fs => goDecodeFields zeroResult fs
  | _ => .error "json: cannot unmarshal value into AnalysisResult"

/-- The decode sequence of `parseAndValidate`: one strict `Decode` into the
struct, then a second `Decode` that must find only whitespace (io.EOF),
otherwise the trailing-data error. -/
def decodeStrict (s : String) : Except String AnalysisResult :=
  match jparseTop s.data with
  | none => .error "invalid JSON or unexpected fields"
  | some (v, rest) =>
    match goDecodeValue v with
    | .error e => .error ("invalid JSON or unexpected fields: " ++ e)
    | .ok r => if skipWs rest = [] then .ok r else .error "trailing data after JSON object"

/-! ### cleanJSON and parseAndValidate -/

/-- Index of the first occurrence of a character. -/
def idxOfCh (c : Char) (l : List Char) : Option Nat :=
  l.findIdx? (fun x => x = c)

/-- Index of the last occurrence of a character. -/
def lastIdxOfCh (c : Char) (l : List Char) : Option Nat :=
  (l.reverse.findIdx? (fun x => x = c)).map (fun k => l.length - 1 - k)

/-- `cleanJSON`: trim whitespace, strip markdown fences and the end-of-turn
token, extract the substring from the first opening brace to the last
closing brace, trim again. -/
def cleanJSON (s : String) : String :=
  let l0 := trimSpace s.data
  let l1 := stripLead "```json".data l0
  let l2 := stripLead "```".data l1
  let l3 := stripTrail "```".data l2
  let l4 := replaceAll l3 "<|eot_id|>".data []
  let l5 :=
    match idxOfCh obraceCh l4, lastIdxOfCh cbraceCh l4 with
    | some i, some j => if i < j then (l4.take (j + 1)).drop i else l4
    | _, _ => l4
  String.mk (trimSpace l5)

/-- `MLXEngine.parseAndValidate`: clean the reply, decode strictly, check
the required fields, the sign of the confidence score and registry
membership, then sanitize category and title. -/
def parseAndValidate (validCategories : List String) (content : String) :
    Except String AnalysisResult :=
  match decodeStrict (cleanJSON content) with
  | .error e => .error e
  | .ok result =>
    if result.category = "" then .error "missing required field: category"
    else if result.title = "" then .error "missing required field: title"
    -- Go tests `result.ConfidenceScore <= 0` on the float value; the value
    -- of `m * 10^e` is nonpositive exactly when the mantissa is
    -- (`JNum.toRat_nonpos` below)
    else if result.confidenceScore.mantissa ≤ 0 then
      .error "missing or invalid confidence_score"
    else if validCategories.contains result.category then
      .ok { category := SanitizeCategory result.category
            title := SanitizeFilename result.title
            confidenceScore := result.confidenceScore }
    else .error ("invalid category: " ++ result.category)

/-! ### The categorization engine: retry loop and map-reduce summarization

The HTTP service is abstracted to oracles: the classification call of one
attempt becomes `svc : Nat → Except String String` (reply content or
transport error message, per attempt number), and the per-chunk summarizer
becomes `summ : Nat → Nat → String → Except String String` (index, total,
chunk text). -/

/-- Allowed destination folders used until `SetCategories` overrides them. -/
def DefaultCategories : List String :=
  ["Personal", "Work", "Finance", "Health", "Education", "Technical",
   "Travel", "Legal", "Projects", "Receipts", "Misc"]

/-- The engine state that matters to the claims. -/
structure MLXEngine where
  ctxMgr : ContextManager
  validCategories : List String

/-- `SetCategories` replaces the allowed set only when non-empty. -/
def MLXEngine.SetCategories (e : MLXEngine) (categories : List String) : MLXEngine :=
  if categories.length > 0 then { e with validCategories := categories } else e

/-- A chat message. -/
structure Message where
  role : String
  content : String
deriving DecidableEq

/-- The corrective user message injected on retries. -/
def retryText (e : String) : String :=
  "Your previous response was invalid: " ++ e ++
    ". Please provide a strictly valid JSON object following the schema."

/-- The messages sent on one attempt: system and user prompt, plus, when
this is a retry carrying a previous error, the two corrective messages. -/
def attemptMessages (sys user : String) (attempt : Nat) (lastErr : Option String) :
    List Message :=
  let base : List Message := [⟨"system", sys⟩, ⟨"user", user⟩]
  if attempt > 0 then
    match lastErr with
    | some e => base ++ [⟨"assistant", "Previous attempt failed validation."⟩,
                         ⟨"user", retryText e⟩]
    | none => base
  else base

/-- What `Categorize` returns together with the requests it sent. -/
structure CategorizeOutcome where
  result : AnalysisResult
  error : Option String
  transcript : List (List Message)

/-- One attempt: the service reply fed through `parseAndValidate`; a
transport-level failure is an error like a validation failure. -/
def attemptRes (cats : List String) (svc : Nat → Except String String) (i : Nat) :
    Except String AnalysisResult :=
  match svc i with
  | .ok content => parseAndValidate cats content
  | .error e => .error e

/-- The fallback analysis returned when every attempt fails (confidence
exactly zero). -/
def fallbackResult : AnalysisResult :=
  { category := "Misc", title := "Unknown_Doc"
    confidenceScore := { mantissa := 0, exp10 := 0 } }

/-- Error text wrapping the last failure after the retry budget is spent
(`maxRetries = 2` in the source). -/
def exhaustedErr (lastErr : String) : String :=
  "failed to get valid structured output after 2 retries: " ++ lastErr

/-- The retry loop of `Categorize` (`for attempt := 0; attempt <= maxRetries`):
return on first success, else remember the error, retry with the corrective
messages, and after the last attempt return the fallback result together
with the wrapped last error. -/
def categorizeLoop (cats : List String) (svc : Nat → Except String String)
    (sys user : String) :
    Nat → Nat → Option String → List (List Message) → CategorizeOutcome
  | _, 0, lastErr, acc =>
    { result := fallbackResult
      error := some (exhaustedErr (lastErr.getD ""))
      transcript := acc }
  | attempt, r + 1, lastErr, acc =>
    let msgs := attemptMessages sys user attempt lastErr
    match attemptRes cats svc attempt with
    | .ok result => { result := result, error := none, transcript := acc ++ [msgs] }
    | .error e => categorizeLoop cats svc sys user (attempt + 1) r (some e) (acc ++ [msgs])

/-- The retry phase of `Categorize`, entered with the already-built system
and user prompts: three total attempts. -/
def Categorize (cats : List String) (svc : Nat → Except String String)
    (sys user : String) : CategorizeOutcome :=
  categorizeLoop cats svc sys user 0 3 none []

/-- Map phase error message for chunk `i` of `total`. -/
def chunkSummaryErr (i total : Nat) (e : String) : String :=
  "failed to summarize chunk " ++ toString i ++ "/" ++ toString total ++ ": " ++ e

/-- Summarize every chunk in order, aborting at the first failure, as the
map loop of `MapReduceSummarize` does. -/
def mapSummaries (summ : Nat → Nat → String → Except String String) (total : Nat) :
    Nat → List String → Except String (List String)
  | _, [] => .ok []
  | i, c :: cs =>
    match summ (i + 1) total c with
    | .error e => .error (chunkSummaryErr (i + 1) total e)
    | .ok s =>
      match mapSummaries summ total (i + 1) cs with
      | .error e => .error e
      | .ok rest => .ok (s :: rest)

/-- Go `strings.Join`. -/
def goJoin (sep : String) : List String → String
  | [] => ""
  | [x] => x
  | x :: y :: xs => x ++ sep ++ goJoin sep (y :: xs)

/-- `MLXEngine.MapReduceSummarize`, fuelled: text within the limit is
returned unchanged; otherwise it is chunked at 80% of the content budget
(`int(float64(contentBudget)*0.8)` = `4*contentBudget/5` on the realistic
range), each chunk is summarized, and the loop recurses on the joined
summaries whenever they still exceed the limit.  The source has no
depth guard, so `none` (exhausted fuel at every depth) models the
non-terminating recursion. -/
def MLXEngine.MapReduceSummarize (e : MLXEngine)
    (summ : Nat → Nat → String → Except String String) (limit : Nat) :
    Nat → String → Option (Except String String)
  | 0, _ => none
  | fuel + 1, text =>
    if e.ctxMgr.tokenizer.CountTokens text ≤ limit then some (.ok text)
    else
      let contentBudget := e.ctxMgr.GetBudgets.2.2.1
      let chunkSize := 4 * contentBudget / 5
      match e.ctxMgr.Chunk text chunkSize with
      | none => none
      | some chunks =>
        match mapSummaries summ chunks.length 0 chunks with
        | .error err => some (.error err)
        | .ok summaries =>
          let combined := goJoin "\n\n" summaries
          if limit < e.ctxMgr.tokenizer.CountTokens combined then
            e.MapReduceSummarize summ limit fuel combined
          else some (.ok combined)

/-! ### Pipeline: per-file processing, counters, worker loop

`processFile` and the worker loop are sequential once one fixes the
outcomes of the external calls, so they are embedded as functions of those
outcomes.  The atomic counter increments become pure `Nat` additions. -/

/-- The shared progress counters. -/
structure Counters where
  total : Nat
  processed : Nat
  failed : Nat
deriving DecidableEq

/-- The scanner's `atomic.AddInt32(&p.TotalFiles, 1)` on an enqueued file. -/
def scanStep (c : Counters) : Counters := { c with total := c.total + 1 }

/-- Everything external that decides one file's processing: the extraction
outcome, whether the per-file context is already cancelled or timed out
right after extraction, the pair `Categorize` returns, and whether the move
to a given folder/name succeeds. -/
structure FileCircumstance where
  extract : Except String String
  ctxDone : Bool
  categorize : AnalysisResult × Option String
  moveOk : String → String → Bool

/-- `Pipeline.processFile`: failed extraction counts one failure; a context
already expired after extraction returns with no counter change; otherwise
the move target comes from the analysis on success or from `Misc` plus the
sanitized original name on a categorization error, and the move outcome
decides which counter is incremented. -/
def processFile (env : FileCircumstance) (baseName ext : String) (c : Counters) :
    Counters :=
  match env.extract with
  | .error _ => { c with failed := c.failed + 1 }
  | .ok _ =>
    if env.ctxDone then c
    else
      let result := env.categorize.1
      let aerr := env.categorize.2
      let targetFolder := if aerr = none then result.category else "Misc"
      let targetName := if aerr = none then result.title ++ ext
                        else SanitizeFilename baseName
      if env.moveOk targetFolder targetName then
        { c with processed := c.processed + 1 }
      else { c with failed := c.failed + 1 }

/-- One job as a worker sees it: either its processing panics somewhere, or
it runs `processFile` under the given circumstances. -/
inductive JobRun
  | panics
  | runs (env : FileCircumstance) (baseName ext : String)

/-- One worker goroutine draining its share of the queue.  The `recover` is
deferred at the goroutine boundary (outside the receive loop), so a panic
increments `failed` once and the goroutine exits: jobs after it are left
unconsumed by this worker.  Returns the final counters and how many jobs
this worker consumed. -/
def workerLoop : List JobRun → Counters → Counters × Nat
  | [], c => (c, 0)
  | job :: rest, c =>
    match job with
    | .panics => ({ c with failed := c.failed + 1 }, 1)
    | .runs env b x =>
      let out := workerLoop rest (processFile env b x c)
      (out.1, out.2 + 1)

/-! ### Concrete instances used by witnesses and counterexamples -/

/-- A concrete tokenizer for witnesses: one token per character. -/
def charTok : Tokenizer :=
  { encode := fun s => s.data.map Char.toNat
    decode := fun ts => String.mk (ts.map Char.ofNat) }

/-- A context manager over `charTok` with ceiling 10 (content budget 6). -/
def demoCM : ContextManager := NewContextManager charTok 10

/-- An engine over `demoCM` with the default category registry. -/
def demoEngine : MLXEngine :=
  { ctxMgr := demoCM, validCategories := DefaultCategories }

/-- A summarizer oracle that returns every chunk unchanged: summaries that
fail to shrink the text. -/
def echoSumm : Nat → Nat → String → Except String String := fun _ _ c => .ok c

/-- A file circumstance whose every stage succeeds. -/
def envOK : FileCircumstance :=
  { extract := .ok "text"
    ctxDone := false
    categorize :=
      ({ category := "Work", title := "Doc"
         confidenceScore := { mantissa := 1, exp10 := 0 } }, none)
    moveOk := fun _ _ => true }

/-- A file circumstance where extraction succeeds but the per-file context
is already cancelled (or timed out) right afterwards. -/
def envCancelled : FileCircumstance :=
  { extract := .ok "text"
    ctxDone := true
    categorize :=
      ({ category := "Work", title := "Doc"
         confidenceScore := { mantissa := 1, exp10 := 0 } }, none)
    moveOk := fun _ _ => true }

/-- Divergence of the `Chunk` loop: the fuelled loop never returns, at any
fuel. -/
def chunkDiverges (cm : ContextManager) (text : String) (chunkSize : Nat) : Prop :=
  ∀ fuel i acc, i < (cm.tokenizer.encode text).length →
    chunkLoop cm (cm.tokenizer.encode text) chunkSize fuel i acc = none

/-- Does some member of the object resolve to this struct field? -/
def keyFor (fs : List (String × JValue)) (t : FieldTag) : Prop :=
  ∃ p ∈ fs, fieldFor p.1 = some t

/-- Every member key resolves to some struct field (what
`DisallowUnknownFields` enforces). -/
def keysKnown (fs : List (String × JValue)) : Prop :=
  ∀ p ∈ fs, fieldFor p.1 ≠ none

/-- A canonical filename-sanitized character list: only allowed characters,
no doubled underscore, no edge dot/space/underscore, non-empty. -/
def canonF (l : List Char) : Prop :=
  (∀ c ∈ l, fileAllowed c = true) ∧ hasSub ['_', '_'] l = false ∧
  (∀ c, l.head? = some c → c ∉ ['.', ' ', '_']) ∧
  (∀ c, l.getLast? = some c → c ∉ ['.', ' ', '_']) ∧ l ≠ []

/-- A canonical category-sanitized character list: additionally slash-aware. -/
def canonC (l : List Char) : Prop :=
  (∀ c ∈ l, catAllowed c = true) ∧ hasSub ['_', '_'] l = false ∧
  hasSub ['/', '/'] l = false ∧
  (∀ c, l.head? = some c → c ∉ ['.', ' ', '_', '/']) ∧
  (∀ c, l.getLast? = some c → c ∉ ['.', ' ', '_', '/']) ∧ l ≠ []

/-- A classification service that fails the first two attempts and then
returns a valid reply (for witnesses). -/
def svcThirdOk : Nat → Except String String := fun i =>
  if i < 2 then .error "connection refused"
  else .ok "\x7b\"category\": \"Personal\", \"title\": \"Diary\", \"confidence_score\": 0.9\x7d"

/-- A classification service that always fails (for witnesses). -/
def svcAllFail : Nat → Except String String := fun _ => .error "connection refused"

end DocsOrganiser

deriving instance DecidableEq for Except

namespace DocsOrganiser

/-! ## Helper lemmas -/

/-- Case shape of `processFile`: it increments `processed` once, or `failed`
once, or — exactly when extraction succeeded but the per-file context was
already done — changes nothing. -/
theorem processFile_shape (env : FileCircumstance) (b x : String) (c : Counters) :
    processFile env b x c = { c with processed := c.processed + 1 } ∨
    processFile env b x c = { c with failed := c.failed + 1 } ∨
    (env.extract.isOk = true ∧ env.ctxDone = true ∧ processFile env b x c = c) := by
  unfold processFile
  rcases hex : env.extract with e | t
  · exact Or.inr (Or.inl rfl)
  · by_cases hd : env.ctxDone
    · simp [hd, Except.isOk, Except.toBool]
    · simp only [hd, if_false]
      by_cases hm : env.moveOk
          (if env.categorize.2 = none then env.categorize.1.category else "Misc")
          (if env.categorize.2 = none then env.categorize.1.title ++ x
           else SanitizeFilename b) = true
      · simp [hm]
      · simp [hm]

/-- `processFile` never decreases a counter and never touches `total`. -/
theorem processFile_mono (env : FileCircumstance) (b x : String) (c : Counters) :
    (processFile env b x c).total = c.total ∧
    c.processed ≤ (processFile env b x c).processed ∧
    c.failed ≤ (processFile env b x c).failed := by
  rcases processFile_shape env b x c with h | h | ⟨_, _, h⟩ <;> rw [h] <;>
    exact ⟨rfl, by simp, by simp⟩

/-- The worker loop never decreases a counter. -/
theorem workerLoop_mono (jobs : List JobRun) (c : Counters) :
    c.total ≤ (workerLoop jobs c).1.total ∧
    c.processed ≤ (workerLoop jobs c).1.processed ∧
    c.failed ≤ (workerLoop jobs c).1.failed := by
  induction jobs generalizing c with
  | nil => exact ⟨le_refl _, le_refl _, le_refl _⟩
  | cons job rest ih =>
    cases job with
    | panics => exact ⟨le_refl _, le_refl _, Nat.le_succ _⟩
    | runs env b x =>
      obtain ⟨h1, h2, h3⟩ := processFile_mono env b x c
      obtain ⟨g1, g2, g3⟩ := ih (processFile env b x c)
      exact ⟨h1 ▸ g1, le_trans h2 g2, le_trans h3 g3⟩

/-! ## Claim theorems -/

/-- C9 (amended): with `m` the effective ceiling stored by the constructor
(`maxTokens` itself when positive, 4096 otherwise), `GetBudgets` returns the
four floors `m/10, m/5, 3m/5, m/10`; each is at most `m` and their sum is at
most `m`; and a ceiling of 1000 yields (100, 200, 600, 100).  (The original
claim compared the budgets against the raw `maxTokens` argument, which fails
for non-positive arguments — see the counterexample.) -/
theorem C9_budgets (tok : Tokenizer) (mt : Int) :
    (NewContextManager tok mt).GetBudgets =
      ((NewContextManager tok mt).maxTokens / 10,
       (NewContextManager tok mt).maxTokens / 5,
       3 * (NewContextManager tok mt).maxTokens / 5,
       (NewContextManager tok mt).maxTokens / 10) ∧
    (0 < mt → ((NewContextManager tok mt).maxTokens : Int) = mt) ∧
    (mt ≤ 0 → (NewContextManager tok mt).maxTokens = 4096) ∧
    (NewContextManager tok mt).GetBudgets.1 ≤ (NewContextManager tok mt).maxTokens ∧
    (NewContextManager tok mt).GetBudgets.2.1 ≤ (NewContextManager tok mt).maxTokens ∧
    (NewContextManager tok mt).GetBudgets.2.2.1 ≤ (NewContextManager tok mt).maxTokens ∧
    (NewContextManager tok mt).GetBudgets.2.2.2 ≤ (NewContextManager tok mt).maxTokens ∧
    (NewContextManager tok mt).GetBudgets.1 + (NewContextManager tok mt).GetBudgets.2.1 +
      (NewContextManager tok mt).GetBudgets.2.2.1 + (NewContextManager tok mt).GetBudgets.2.2.2 ≤
      (NewContextManager tok mt).maxTokens ∧
    (NewContextManager tok 1000).GetBudgets = (100, 200, 600, 100) := by
  refine ⟨rfl, ?_, ?_, ?_, ?_, ?_, ?_, ?_, ?_⟩
  case refine_8 =>
    norm_num [NewContextManager, ContextManager.GetBudgets]
    decide
  · intro h
    simp only [NewContextManager, if_neg (by omega : ¬ mt ≤ 0)]
    exact Int.toNat_of_nonneg (le_of_lt h)
  · intro h
    simp [NewContextManager, if_pos h]
  · exact Nat.div_le_self _ _
  · exact Nat.div_le_self _ _
  · simp only [ContextManager.GetBudgets]
    omega
  · exact Nat.div_le_self _ _
  · simp only [ContextManager.GetBudgets]
    omega

/-- C9 witness: the amended theorem applied at ceiling 1000 and at -5. -/
theorem C9_budgets_witness :
    ((NewContextManager charTok 1000).maxTokens : Int) = 1000 ∧
    (NewContextManager charTok (-5)).maxTokens = 4096 :=
  ⟨(C9_budgets charTok 1000).2.1 (by norm_num),
   (C9_budgets charTok (-5)).2.2.1 (by norm_num)⟩

/-- C9 counterexample: for `maxTokens = 0` the budgets are computed from
the substituted default 4096, so none of them is `≤ maxTokens` and their
sum is not `≤ maxTokens`, contradicting the claim's final clause. -/
theorem C9_budgets_counterexample :
    (NewContextManager charTok 0).GetBudgets = (409, 819, 2457, 409) ∧
    ¬ (NewContextManager charTok 0).GetBudgets.1 ≤ 0 := by
  exact ⟨by decide, by decide⟩

/-- C3 (confirmed): `Truncate` returns the text byte-identical when its
token count is at most `limit`; otherwise the sliding window keeps the
first `limit/2` and last `limit - limit/2` tokens around the literal
truncation marker, and middle extraction keeps the first `floor(limit*0.4)`
(= `2*limit/5`) and last `limit - floor(limit*0.4)` tokens around the
literal extraction marker.  The stated take/drop lengths confirm the halves
really are the first and last that many tokens. -/
theorem C3_truncate (cm : ContextManager) (text : String) (limit : Nat) :
    (cm.tokenizer.CountTokens text ≤ limit →
      cm.Truncate text limit .slidingWindow = text ∧
      cm.Truncate text limit .middleExtraction = text) ∧
    (limit < cm.tokenizer.CountTokens text →
      (cm.Truncate text limit .slidingWindow =
        cm.tokenizer.decode ((cm.tokenizer.encode text).take (limit / 2)) ++
          "\n[... truncated ...]\n" ++
        cm.tokenizer.decode ((cm.tokenizer.encode text).drop
          ((cm.tokenizer.encode text).length - (limit - limit / 2))) ∧
       ((cm.tokenizer.encode text).take (limit / 2)).length = limit / 2 ∧
       ((cm.tokenizer.encode text).drop
          ((cm.tokenizer.encode text).length - (limit - limit / 2))).length =
         limit - limit / 2) ∧
      (cm.Truncate text limit .middleExtraction =
        cm.tokenizer.decode ((cm.tokenizer.encode text).take (2 * limit / 5)) ++
          "\n[... content extracted ...]\n" ++
        cm.tokenizer.decode ((cm.tokenizer.encode text).drop
          ((cm.tokenizer.encode text).length - (limit - 2 * limit / 5))) ∧
       ((cm.tokenizer.encode text).take (2 * limit / 5)).length = 2 * limit / 5 ∧
       ((cm.tokenizer.encode text).drop
          ((cm.tokenizer.encode text).length - (limit - 2 * limit / 5))).length =
         limit - 2 * limit / 5)) := by
  unfold Tokenizer.CountTokens
  constructor
  · intro h
    constructor <;> simp [ContextManager.Truncate, h]
  · intro h
    have hlen : ¬ (cm.tokenizer.encode text).length ≤ limit := by omega
    have h2 : limit / 2 ≤ limit := Nat.div_le_self _ _
    have h5 : 2 * limit / 5 ≤ limit := by omega
    refine ⟨⟨?_, ?_, ?_⟩, ?_, ?_, ?_⟩
    · simp [ContextManager.Truncate, hlen, ContextManager.slidingWindowFn]
    · simp only [List.length_take]
      omega
    · simp only [List.length_drop]
      omega
    · simp [ContextManager.Truncate, hlen, ContextManager.middleExtractionFn]
    · simp only [List.length_take]
      omega
    · simp only [List.length_drop]
      omega

/-- C3 witness: the theorem applied to the per-character tokenizer, to a
text within the limit and to one exceeding it. -/
theorem C3_truncate_witness :
    demoCM.Truncate "ab" 5 .slidingWindow = "ab" ∧
    demoCM.Truncate "abcdefgh" 5 .slidingWindow =
      demoCM.tokenizer.decode ((demoCM.tokenizer.encode "abcdefgh").take (5 / 2)) ++
        "\n[... truncated ...]\n" ++
      demoCM.tokenizer.decode ((demoCM.tokenizer.encode "abcdefgh").drop
        ((demoCM.tokenizer.encode "abcdefgh").length - (5 - 5 / 2))) ∧
    demoCM.Truncate "abcdefgh" 5 .middleExtraction =
      demoCM.tokenizer.decode ((demoCM.tokenizer.encode "abcdefgh").take (2 * 5 / 5)) ++
        "\n[... content extracted ...]\n" ++
      demoCM.tokenizer.decode ((demoCM.tokenizer.encode "abcdefgh").drop
        ((demoCM.tokenizer.encode "abcdefgh").length - (5 - 2 * 5 / 5))) :=
  ⟨((C3_truncate demoCM "ab" 5).1 (by decide)).1,
   (((C3_truncate demoCM "abcdefgh" 5).2 (by decide)).1).1,
   (((C3_truncate demoCM "abcdefgh" 5).2 (by decide)).2).1⟩

/-- C4: the source `MapReduceSummarize` has no recursion-depth guard.  With
the per-character tokenizer, ceiling 10 (content budget 6, chunk size 4),
limit 1 and a summarizer that returns every chunk unchanged, the text "ab"
(2 tokens, over the limit but within one chunk) reduces to itself and the
recursion never terminates: the fuelled embedding returns `none` at every
depth, where the claim requires termination after a fixed number of
rounds. -/
theorem C4_no_depth_guard :
    demoEngine.ctxMgr.tokenizer.CountTokens "ab" = 2 ∧
    ∀ fuel, demoEngine.MapReduceSummarize echoSumm 1 fuel "ab" = none := by
  refine ⟨rfl, fun fuel => ?_⟩
  induction fuel with
  | zero => rfl
  | succ n ih =>
    have h : demoEngine.MapReduceSummarize echoSumm 1 (n + 1) "ab" =
        demoEngine.MapReduceSummarize echoSumm 1 n "ab" := rfl
    rw [h]
    exact ih

/-- C8: the `recover` is deferred at the worker-goroutine boundary, outside
the job-receive loop, so a panic is logged and counted as exactly one
failure but the recovering worker exits: whatever jobs remain for it are
never consumed.  In a single-worker pool the panicking job stops all
processing (first conjunct and its instance on a two-job queue, where only
one job is consumed); a panic-free worker drains its whole queue (third
conjunct) — so the pool does not continue to completion as the claim and
the specification require, which matches the spec's own per-task fault
isolation note. -/
theorem C8_panic_stops_worker :
    (∀ rest c, workerLoop (.panics :: rest) c = ({ c with failed := c.failed + 1 }, 1)) ∧
    workerLoop [.panics, .runs envOK "a" ".txt"] ⟨2, 0, 0⟩ = (⟨2, 0, 1⟩, 1) ∧
    workerLoop [.runs envOK "a" ".txt", .runs envOK "b" ".txt"] ⟨2, 0, 0⟩ =
      (⟨2, 2, 0⟩, 2) := by
  exact ⟨fun rest c => rfl, by decide, by decide⟩

/-- C7 (amended): no pipeline operation ever decreases a counter, and each
consumed job causes at most one counter increment: exactly one of
`processed` or `failed` — unless extraction succeeded but the per-file
context was already cancelled or timed out, in which case the job is
reflected in neither counter (see the counterexample). -/
theorem C7_counters (env : FileCircumstance) (b x : String) (c : Counters)
    (jobs : List JobRun) :
    (processFile env b x c).total = c.total ∧
    c.processed ≤ (processFile env b x c).processed ∧
    c.failed ≤ (processFile env b x c).failed ∧
    (processFile env b x c = { c with processed := c.processed + 1 } ∨
     processFile env b x c = { c with failed := c.failed + 1 } ∨
     (env.extract.isOk = true ∧ env.ctxDone = true ∧ processFile env b x c = c)) ∧
    ((env.extract.isOk = true → env.ctxDone = false) →
      (processFile env b x c).processed + (processFile env b x c).failed =
        c.processed + c.failed + 1) ∧
    c.total ≤ (workerLoop jobs c).1.total ∧
    c.processed ≤ (workerLoop jobs c).1.processed ∧
    c.failed ≤ (workerLoop jobs c).1.failed ∧
    scanStep c = { c with total := c.total + 1 } := by
  obtain ⟨m1, m2, m3⟩ := processFile_mono env b x c
  obtain ⟨w1, w2, w3⟩ := workerLoop_mono jobs c
  refine ⟨m1, m2, m3, processFile_shape env b x c, ?_, w1, w2, w3, rfl⟩
  intro hnc
  rcases processFile_shape env b x c with h | h | ⟨hok, hdone, _⟩
  · rw [h]
    show c.processed + 1 + c.failed = c.processed + c.failed + 1
    omega
  · rw [h]
    show c.processed + (c.failed + 1) = c.processed + c.failed + 1
    omega
  · exact absurd (hnc hok) (by simp [hdone])

/-- C7 witness: the amended theorem applied to a job whose move succeeds
(exactly one `processed` increment). -/
theorem C7_counters_witness :
    (processFile envOK "a" ".txt" ⟨3, 1, 1⟩).processed +
      (processFile envOK "a" ".txt" ⟨3, 1, 1⟩).failed = 1 + 1 + 1 :=
  (C7_counters envOK "a" ".txt" ⟨3, 1, 1⟩ []).2.2.2.2.1 (by decide)

/-- C7 counterexample: a consumed job whose extraction succeeds but whose
per-file context is already cancelled returns with neither `processed` nor
`failed` incremented, contradicting the claim that every consumed job
causes exactly one increment. -/
theorem C7_counters_counterexample :
    processFile envCancelled "doc" ".txt" ⟨1, 0, 0⟩ = ⟨1, 0, 0⟩ := by decide

/-! ## Chunking lemmas (for C10) -/

/-- `windowsFuel` does not depend on the fuel once it covers the length. -/
theorem windowsFuel_congr (k : Nat) (hk : 1 ≤ k) :
    ∀ f1 f2 l, l.length ≤ f1 → l.length ≤ f2 →
      windowsFuel k f1 l = windowsFuel k f2 l := by
  intro f1
  induction f1 with
  | zero =>
    intro f2 l h1 _
    have : l = [] := List.length_eq_zero.mp (Nat.le_zero.mp h1)
    subst this
    cases f2 <;> rfl
  | succ f ih =>
    intro f2 l h1 h2
    cases l with
    | nil => cases f2 <;> rfl
    | cons c cs =>
      cases f2 with
      | zero => simp at h2
      | succ f2' =>
        show (c :: cs).take k :: windowsFuel k f ((c :: cs).drop k) =
          (c :: cs).take k :: windowsFuel k f2' ((c :: cs).drop k)
        have hd : ((c :: cs).drop k).length ≤ f := by
          simp only [List.length_drop, List.length_cons] at h1 ⊢
          omega
        have hd2 : ((c :: cs).drop k).length ≤ f2' := by
          simp only [List.length_drop, List.length_cons] at h2 ⊢
          omega
        rw [ih _ _ hd hd2]

/-- Unfolding `windows` on a non-empty list. -/
theorem windows_cons (k : Nat) (hk : 1 ≤ k) (c : Nat) (cs : List Nat) :
    windows k (c :: cs) = (c :: cs).take k :: windows k ((c :: cs).drop k) := by
  show windowsFuel k (cs.length + 1) (c :: cs) = _
  show (c :: cs).take k :: windowsFuel k cs.length ((c :: cs).drop k) = _
  unfold windows
  congr 1
  apply windowsFuel_congr k hk
  · simp only [List.length_drop, List.length_cons]
    omega
  · exact le_refl _

/-- The windows concatenate back to the token sequence. -/
theorem windows_join (k : Nat) (hk : 1 ≤ k) :
    ∀ n l, l.length ≤ n → (windows k l).flatten = l := by
  intro n
  induction n with
  | zero =>
    intro l h
    have : l = [] := List.length_eq_zero.mp (Nat.le_zero.mp h)
    subst this
    rfl
  | succ n ih =>
    intro l h
    cases l with
    | nil => rfl
    | cons c cs =>
      rw [windows_cons k hk]
      show (c :: cs).take k ++ (windows k ((c :: cs).drop k)).flatten = c :: cs
      rw [ih _ (by simp only [List.length_drop, List.length_cons] at *; omega)]
      exact List.take_append_drop k (c :: cs)

/-- Every window holds at most `k` tokens. -/
theorem windows_size (k : Nat) (hk : 1 ≤ k) :
    ∀ n l w, l.length ≤ n → w ∈ windows k l → w.length ≤ k := by
  intro n
  induction n with
  | zero =>
    intro l w h hw
    have : l = [] := List.length_eq_zero.mp (Nat.le_zero.mp h)
    subst this
    simp [windows, windowsFuel] at hw
  | succ n ih =>
    intro l w h hw
    cases l with
    | nil => simp [windows, windowsFuel] at hw
    | cons c cs =>
      rw [windows_cons k hk] at hw
      rcases List.mem_cons.mp hw with h1 | h1
      · subst h1
        simp only [List.length_take]
        exact Nat.min_le_left _ _
      · exact ih _ _ (by simp only [List.length_drop, List.length_cons] at *; omega) h1

/-- The Go slice `tokens[i:min(i+k, len)]` is the first `k` of the tokens
from `i` on. -/
theorem slice_take (tokens : List Nat) (i k : Nat) (hi : i < tokens.length) :
    (tokens.take (min (i + k) tokens.length)).drop i = (tokens.drop i).take k := by
  rcases Nat.le_total (i + k) tokens.length with h | h
  · rw [Nat.min_eq_left h, List.drop_take]
    congr 1
    omega
  · rw [Nat.min_eq_right h, List.take_length, List.take_of_length_le]
    simp only [List.length_drop]
    omega

/-- The `Chunk` loop with sufficient fuel produces the decoded windows of
the remaining tokens. -/
theorem chunkLoop_eq (cm : ContextManager) (tokens : List Nat) (k : Nat)
    (hk : 1 ≤ k) :
    ∀ f i acc, tokens.length < i + f → 1 ≤ f →
      chunkLoop cm tokens k f i acc =
        some (acc ++ (windows k (tokens.drop i)).map cm.tokenizer.decode) := by
  intro f
  induction f with
  | zero =>
    intro i acc h1 h2
    omega
  | succ f ih =>
    intro i acc hall _
    show (if i < tokens.length then
        chunkLoop cm tokens k f (i + k)
          (acc ++ [cm.tokenizer.decode ((tokens.take (min (i + k) tokens.length)).drop i)])
      else some acc) =
      some (acc ++ (windows k (tokens.drop i)).map cm.tokenizer.decode)
    by_cases hi : i < tokens.length
    · rw [if_pos hi, slice_take tokens i k hi]
      have hne : tokens.drop i ≠ [] := by
        intro hcon
        have h3 := List.length_drop i tokens
        rw [hcon] at h3
        simp only [List.length_nil] at h3
        omega
      obtain ⟨c, cs, hcc⟩ := List.exists_cons_of_ne_nil hne
      rw [ih (i + k) _ (by omega) (by omega)]
      congr 1
      rw [hcc, windows_cons k hk]
      have hdd : (c :: cs).drop k = tokens.drop (i + k) := by
        rw [← hcc, List.drop_drop]
      rw [hdd]
      simp only [List.map_cons, List.append_assoc, List.singleton_append]
    · rw [if_neg hi]
      have h4 : tokens.drop i = [] := by
        apply List.eq_nil_of_length_eq_zero
        simp only [List.length_drop]
        omega
      rw [h4]
      show some acc = some (acc ++ [])
      rw [List.append_nil]

/-- C10 (amended for `chunkSize ≥ 1`; the loop never terminates at
`chunkSize = 0`, see the counterexample): text within `chunkSize` yields a
single-element result holding the input unchanged; otherwise `Chunk` yields
the decoded consecutive windows, in order, whose concatenation is the full
token sequence and each of which holds at most `chunkSize` tokens. -/
theorem C10_chunk (cm : ContextManager) (text : String) (k : Nat) (hk : 1 ≤ k) :
    (cm.tokenizer.CountTokens text ≤ k → cm.Chunk text k = some [text]) ∧
    (k < cm.tokenizer.CountTokens text →
      cm.Chunk text k =
        some ((windows k (cm.tokenizer.encode text)).map cm.tokenizer.decode) ∧
      (windows k (cm.tokenizer.encode text)).flatten = cm.tokenizer.encode text ∧
      ∀ w ∈ windows k (cm.tokenizer.encode text), w.length ≤ k) := by
  constructor
  · intro h
    simp [ContextManager.Chunk, Tokenizer.CountTokens] at *
    omega
  · intro h
    unfold Tokenizer.CountTokens at h
    refine ⟨?_, windows_join k hk _ _ (le_refl _), fun w hw => windows_size k hk _ _ w (le_refl _) hw⟩
    unfold ContextManager.Chunk
    rw [if_neg (by omega)]
    rw [chunkLoop_eq cm _ k hk _ 0 [] (by omega) (by omega)]
    simp

/-- C10 witness: the amended theorem applied to the per-character
tokenizer, within and beyond the chunk size. -/
theorem C10_chunk_witness :
    demoCM.Chunk "ab" 5 = some ["ab"] ∧
    demoCM.Chunk "abc" 2 =
      some ((windows 2 (demoCM.tokenizer.encode "abc")).map demoCM.tokenizer.decode) :=
  ⟨(C10_chunk demoCM "ab" 5 (by norm_num)).1 (by decide),
   ((C10_chunk demoCM "abc" 2 (by norm_num)).2 (by decide)).1⟩

/-- C10 counterexample: at `chunkSize = 0` on a non-empty token sequence
the Go loop index never advances, so the loop never terminates — the
fuelled embedding returns nothing at every fuel — where the claim, stated
for every `chunkSize`, requires the decoded windows to be returned. -/
theorem C10_chunk_counterexample :
    chunkDiverges demoCM "ab" 0 ∧ demoCM.Chunk "ab" 0 = none := by
  constructor
  · intro fuel i acc h
    induction fuel generalizing acc with
    | zero => rfl
    | succ n ih =>
      show (if i < (demoCM.tokenizer.encode "ab").length then
        chunkLoop demoCM (demoCM.tokenizer.encode "ab") 0 n (i + 0)
          (acc ++ [demoCM.tokenizer.decode
            (((demoCM.tokenizer.encode "ab").take
              (min (i + 0) (demoCM.tokenizer.encode "ab").length)).drop i)])
        else some acc) = none
      rw [if_pos h]
      exact ih _
  · decide

/-! ## Retry-loop lemmas (for C2) -/

/-- Success on the first attempt returns immediately after one request. -/
theorem categorize_ok0 (cats : List String) (svc : Nat → Except String String)
    (sys user : String) (a : AnalysisResult)
    (h0 : attemptRes cats svc 0 = .ok a) :
    Categorize cats svc sys user =
      { result := a, error := none,
        transcript := [attemptMessages sys user 0 none] } := by
  simp only [Categorize, categorizeLoop, h0, List.nil_append]

/-- Failure then success: two requests, the second carrying the first
error. -/
theorem categorize_err0_ok1 (cats : List String) (svc : Nat → Except String String)
    (sys user : String) (e0 : String) (a : AnalysisResult)
    (h0 : attemptRes cats svc 0 = .error e0)
    (h1 : attemptRes cats svc 1 = .ok a) :
    Categorize cats svc sys user =
      { result := a, error := none,
        transcript := [attemptMessages sys user 0 none,
                       attemptMessages sys user 1 (some e0)] } := by
  simp only [Categorize, categorizeLoop, h0, h1, List.nil_append, List.singleton_append]

/-- Two failures then success: three requests. -/
theorem categorize_err01_ok2 (cats : List String) (svc : Nat → Except String String)
    (sys user : String) (e0 e1 : String) (a : AnalysisResult)
    (h0 : attemptRes cats svc 0 = .error e0)
    (h1 : attemptRes cats svc 1 = .error e1)
    (h2 : attemptRes cats svc 2 = .ok a) :
    Categorize cats svc sys user =
      { result := a, error := none,
        transcript := [attemptMessages sys user 0 none,
                       attemptMessages sys user 1 (some e0),
                       attemptMessages sys user 2 (some e1)] } := by
  simp only [Categorize, categorizeLoop, h0, h1, h2, List.nil_append,
    List.singleton_append, List.cons_append]

/-- Three failures: the fallback result together with the wrapped last
error. -/
theorem categorize_allFail (cats : List String) (svc : Nat → Except String String)
    (sys user : String) (e0 e1 e2 : String)
    (h0 : attemptRes cats svc 0 = .error e0)
    (h1 : attemptRes cats svc 1 = .error e1)
    (h2 : attemptRes cats svc 2 = .error e2) :
    Categorize cats svc sys user =
      { result := fallbackResult, error := some (exhaustedErr e2),
        transcript := [attemptMessages sys user 0 none,
                       attemptMessages sys user 1 (some e0),
                       attemptMessages sys user 2 (some e1)] } := by
  simp only [Categorize, categorizeLoop, h0, h1, h2, List.nil_append,
    List.singleton_append, List.cons_append, Option.getD_some]

/-- C2 (confirmed): the retry phase makes at most 3 attempts (one
message-list per attempt in the transcript); the first attempt sends
exactly the system and user messages; every later attempt appends exactly
the two corrective messages carrying the previous attempt's failure; the
loop returns the first attempt that parses and validates, with no error;
and when all three attempts fail it returns the fallback result (category
"Misc" — the registry's guaranteed fallback entry — fallback title,
confidence 0) together with an error wrapping the last failure. -/
theorem C2_retry (cats : List String) (svc : Nat → Except String String)
    (sys user : String) :
    (Categorize cats svc sys user).transcript.length ≤ 3 ∧
    (Categorize cats svc sys user).transcript.head? =
      some [⟨"system", sys⟩, ⟨"user", user⟩] ∧
    (∀ i, i + 1 < (Categorize cats svc sys user).transcript.length →
      ∃ e, attemptRes cats svc i = .error e ∧
        (Categorize cats svc sys user).transcript[i + 1]? =
          some ([⟨"system", sys⟩, ⟨"user", user⟩] ++
            [⟨"assistant", "Previous attempt failed validation."⟩,
             ⟨"user", retryText e⟩])) ∧
    (∀ k a, k < 3 → attemptRes cats svc k = .ok a →
      (∀ j, j < k → ∃ e, attemptRes cats svc j = .error e) →
      (Categorize cats svc sys user).error = none ∧
      (Categorize cats svc sys user).result = a ∧
      (Categorize cats svc sys user).transcript.length = k + 1) ∧
    ((∀ j, j < 3 → ∃ e, attemptRes cats svc j = .error e) →
      ∃ e2, attemptRes cats svc 2 = .error e2 ∧
        (Categorize cats svc sys user).result = fallbackResult ∧
        (Categorize cats svc sys user).error = some (exhaustedErr e2) ∧
        (Categorize cats svc sys user).transcript.length = 3) := by
  rcases h0 : attemptRes cats svc 0 with e0 | a0
  · rcases h1 : attemptRes cats svc 1 with e1 | a1
    · rcases h2 : attemptRes cats svc 2 with e2 | a2
      · rw [categorize_allFail cats svc sys user e0 e1 e2 h0 h1 h2]
        refine ⟨by simp, rfl, ?_, ?_, ?_⟩
        · intro i hi
          simp only [List.length_cons, List.length_nil] at hi
          match i with
          | 0 => exact ⟨e0, h0, rfl⟩
          | 1 => exact ⟨e1, h1, rfl⟩
        · intro k a hk hok _
          match k with
          | 0 => rw [h0] at hok; exact absurd hok (by simp)
          | 1 => rw [h1] at hok; exact absurd hok (by simp)
          | 2 => rw [h2] at hok; exact absurd hok (by simp)
        · intro _
          exact ⟨e2, rfl, rfl, rfl, rfl⟩
      · rw [categorize_err01_ok2 cats svc sys user e0 e1 a2 h0 h1 h2]
        refine ⟨by simp, rfl, ?_, ?_, ?_⟩
        · intro i hi
          simp only [List.length_cons, List.length_nil] at hi
          match i with
          | 0 => exact ⟨e0, h0, rfl⟩
          | 1 => exact ⟨e1, h1, rfl⟩
        · intro k a hk hok hprev
          match k with
          | 0 => rw [h0] at hok; exact absurd hok (by simp)
          | 1 => rw [h1] at hok; exact absurd hok (by simp)
          | 2 =>
            rw [h2] at hok
            cases hok
            exact ⟨rfl, rfl, rfl⟩
        · intro hall
          obtain ⟨e, he⟩ := hall 2 (by omega)
          rw [h2] at he
          exact absurd he (by simp)
    · rw [categorize_err0_ok1 cats svc sys user e0 a1 h0 h1]
      refine ⟨by simp, rfl, ?_, ?_, ?_⟩
      · intro i hi
        simp only [List.length_cons, List.length_nil] at hi
        match i with
        | 0 => exact ⟨e0, h0, rfl⟩
      · intro k a hk hok hprev
        match k with
        | 0 => rw [h0] at hok; exact absurd hok (by simp)
        | 1 =>
          rw [h1] at hok
          cases hok
          exact ⟨rfl, rfl, rfl⟩
        | 2 =>
          obtain ⟨e, he⟩ := hprev 1 (by omega)
          rw [h1] at he
          exact absurd he (by simp)
      · intro hall
        obtain ⟨e, he⟩ := hall 1 (by omega)
        rw [h1] at he
        exact absurd he (by simp)
  · rw [categorize_ok0 cats svc sys user a0 h0]
    refine ⟨by simp, rfl, ?_, ?_, ?_⟩
    · intro i hi
      simp only [List.length_cons, List.length_nil] at hi
      omega
    · intro k a hk hok hprev
      match k with
      | 0 =>
        rw [h0] at hok
        cases hok
        exact ⟨rfl, rfl, rfl⟩
      | 1 =>
        obtain ⟨e, he⟩ := hprev 0 (by omega)
        rw [h0] at he
        exact absurd he (by simp)
      | 2 =>
        obtain ⟨e, he⟩ := hprev 0 (by omega)
        rw [h0] at he
        exact absurd he (by simp)
    · intro hall
      obtain ⟨e, he⟩ := hall 0 (by omega)
      rw [h0] at he
      exact absurd he (by simp)

/-- C2 witness: the theorem applied to an always-failing service — the
fallback result, the wrapped transport error and three recorded attempts —
and to one succeeding on the third attempt. -/
theorem C2_retry_witness :
    (Categorize DefaultCategories svcAllFail "s" "u").result = fallbackResult ∧
    (Categorize DefaultCategories svcAllFail "s" "u").error =
      some (exhaustedErr "connection refused") ∧
    (Categorize DefaultCategories svcAllFail "s" "u").transcript.length = 3 ∧
    (Categorize DefaultCategories svcThirdOk "s" "u").error = none ∧
    (Categorize DefaultCategories svcThirdOk "s" "u").transcript.length = 3 := by
  have h := (C2_retry DefaultCategories svcAllFail "s" "u").2.2.2.2
    (fun j _ => ⟨"connection refused", rfl⟩)
  obtain ⟨e2, he2, hr, he, hl⟩ := h
  have hcon : attemptRes DefaultCategories svcAllFail 2 = .error "connection refused" := rfl
  rw [hcon] at he2
  cases he2
  have g := (C2_retry DefaultCategories svcThirdOk "s" "u").2.2.2.1 2
    { category := "Personal", title := "Diary",
      confidenceScore := { mantissa := 9, exp10 := -1 } }
    (by omega) (by decide)
    (fun j hj => ⟨"connection refused", by
      match j, hj with
      | 0, _ => rfl
      | 1, _ => rfl⟩)
  exact ⟨hr, he, hl, g.1, by rw [g.2.2]⟩

/-! ## Substring and trimming lemmas (for C6) -/

/-- `leadsWith` recognises exactly the lists extending `pat`. -/
theorem leadsWith_iff (pat : List Char) :
    ∀ l, leadsWith pat l = true ↔ ∃ v, l = pat ++ v := by
  induction pat with
  | nil =>
    intro l
    simp [leadsWith]
  | cons p ps ih =>
    intro l
    cases l with
    | nil =>
      simp [leadsWith]
    | cons c cs =>
      simp only [leadsWith, Bool.and_eq_true, decide_eq_true_eq, ih, List.cons_append,
        List.cons.injEq]
      constructor
      · rintro ⟨rfl, v, rfl⟩
        exact ⟨v, rfl, rfl⟩
      · rintro ⟨v, rfl, rfl⟩
        exact ⟨rfl, v, rfl⟩

/-- `hasSub` recognises exactly the lists containing `pat` contiguously. -/
theorem hasSub_iff (pat : List Char) :
    ∀ l, hasSub pat l = true ↔ ∃ u v, l = u ++ pat ++ v := by
  intro l
  induction l with
  | nil =>
    simp only [hasSub, leadsWith_iff]
    constructor
    · rintro ⟨v, hv⟩
      exact ⟨[], v, hv⟩
    · rintro ⟨u, v, huv⟩
      obtain ⟨rfl, rfl⟩ := List.append_eq_nil.mp (List.append_eq_nil.mp huv.symm).1
      exact ⟨v, huv⟩
  | cons c cs ih =>
    simp only [hasSub, Bool.or_eq_true, leadsWith_iff, ih]
    constructor
    · rintro (⟨v, hv⟩ | ⟨u, v, huv⟩)
      · exact ⟨[], v, by simp [hv]⟩
      · exact ⟨c :: u, v, by simp [huv]⟩
    · rintro ⟨u, v, huv⟩
      cases u with
      | nil =>
        exact Or.inl ⟨v, by simpa using huv⟩
      | cons x xs =>
        right
        simp only [List.cons_append, List.cons.injEq] at huv
        exact ⟨xs, v, huv.2⟩

/-- A sublist carved out by surrounding context inherits pattern absence. -/
theorem hasSub_of_context (pat x m y : List Char) (h : hasSub pat m = true) :
    hasSub pat (x ++ m ++ y) = true := by
  rw [hasSub_iff] at h ⊢
  obtain ⟨u, v, rfl⟩ := h
  exact ⟨x ++ u, v ++ y, by simp⟩

/-- Pattern absence passes to any `drop`. -/
theorem hasSub_drop (pat l : List Char) (n : Nat) (h : hasSub pat l = false) :
    hasSub pat (l.drop n) = false := by
  by_contra hcon
  rw [Bool.not_eq_false] at hcon
  have := hasSub_of_context pat (l.take n) (l.drop n) [] hcon
  rw [List.append_nil, List.take_append_drop] at this
  rw [this] at h
  exact absurd h (by simp)

/-- Pattern absence passes to any `take`. -/
theorem hasSub_take (pat l : List Char) (n : Nat) (h : hasSub pat l = false) :
    hasSub pat (l.take n) = false := by
  by_contra hcon
  rw [Bool.not_eq_false] at hcon
  have := hasSub_of_context pat [] (l.take n) (l.drop n) hcon
  rw [List.nil_append, List.take_append_drop] at this
  rw [this] at h
  exact absurd h (by simp)

/-- `dropWhile` is a `drop`. -/
theorem dropWhile_eq_drop (p : Char → Bool) :
    ∀ l : List Char, ∃ n, l.dropWhile p = l.drop n := by
  intro l
  induction l with
  | nil => exact ⟨0, rfl⟩
  | cons c cs ih =>
    by_cases hc : p c
    · obtain ⟨n, hn⟩ := ih
      refine ⟨n + 1, ?_⟩
      rw [List.dropWhile_cons, if_pos hc, hn]
      rfl
    · refine ⟨0, ?_⟩
      rw [List.dropWhile_cons, if_neg hc]
      rfl

/-- `dropTrailWhile` is a `take`. -/
theorem dropTrailWhile_eq_take (p : Char → Bool) (l : List Char) :
    ∃ n, dropTrailWhile p l = l.take n := by
  obtain ⟨n, hn⟩ := dropWhile_eq_drop p l.reverse
  refine ⟨l.length - n, ?_⟩
  rw [dropTrailWhile, hn, ← List.rdrop_eq_reverse_drop_reverse]
  rfl

/-- First character surviving `dropWhile` fails the predicate. -/
theorem head_dropWhile_not (p : Char → Bool) :
    ∀ (l : List Char) (c : Char), (l.dropWhile p).head? = some c → p c = false := by
  intro l
  induction l with
  | nil => intro c h; simp at h
  | cons x xs ih =>
    intro c h
    by_cases hx : p x
    · rw [List.dropWhile_cons, if_pos hx] at h
      exact ih c h
    · rw [List.dropWhile_cons, if_neg hx] at h
      simp only [List.head?_cons, Option.some.injEq] at h
      subst h
      exact Bool.eq_false_iff.mpr hx

/-- Last character surviving `dropTrailWhile` fails the predicate. -/
theorem getLast_dropTrailWhile_not (p : Char → Bool) (l : List Char) (c : Char)
    (h : (dropTrailWhile p l).getLast? = some c) : p c = false := by
  rw [dropTrailWhile, List.getLast?_reverse] at h
  exact head_dropWhile_not p _ c h

/-- Heads survive `take`. -/
theorem head_take (l : List Char) (n : Nat) (c : Char)
    (h : (l.take n).head? = some c) : l.head? = some c := by
  cases l with
  | nil => simp at h
  | cons x xs =>
    cases n with
    | zero => simp at h
    | succ m => simpa using h

/-! ## ReplaceAll and collapse-loop lemmas (for C6) -/

/-- Single-character replacement is a character map. -/
theorem replFuel_single (a b : Char) :
    ∀ f l, l.length ≤ f →
      replFuel [a] [b] f l = l.map (fun c => if c = a then b else c) := by
  intro f
  induction f with
  | zero =>
    intro l h
    have : l = [] := List.length_eq_zero.mp (Nat.le_zero.mp h)
    subst this
    rfl
  | succ f ih =>
    intro l h
    cases l with
    | nil => rfl
    | cons c cs =>
      simp only [replFuel, List.map_cons]
      by_cases hac : a = c
      · rw [if_pos (by simp [leadsWith, hac]), if_pos hac.symm]
        have hd : List.drop ([a].length - 1) cs = cs := by simp
        rw [hd, ih cs (by simp at h; omega)]
        rfl
      · rw [if_neg (by simp [leadsWith, hac]),
          if_neg (fun hh => hac hh.symm), ih cs (by simp at h; omega)]

/-- Doubled-character collapse never lengthens the list. -/
theorem repl2_len_le (a : Char) :
    ∀ f l, (replFuel [a, a] [a] f l).length ≤ l.length := by
  intro f
  induction f with
  | zero => intro l; exact le_refl _
  | succ f ih =>
    intro l
    cases l with
    | nil => exact le_refl _
    | cons c cs =>
      simp only [replFuel]
      by_cases hc : leadsWith [a, a] (c :: cs) = true
      · rw [if_pos hc]
        have h1 := ih (cs.drop 1)
        obtain ⟨v, hv⟩ := (leadsWith_iff _ _).mp hc
        have hcs : cs.length = v.length + 1 := by
          have := congrArg List.length hv
          simp at this
          omega
        simp only [List.length_append, List.length_cons, List.length_nil,
          List.length_drop] at *
        norm_num at h1 ⊢
        omega
      · rw [if_neg hc]
        simp only [List.length_cons]
        exact Nat.succ_le_succ (ih cs)

/-- When the doubled character occurs, one collapse pass strictly shrinks
the list. -/
theorem repl2_len_lt (a : Char) :
    ∀ f l, l.length ≤ f → hasSub [a, a] l = true →
      (replFuel [a, a] [a] f l).length < l.length := by
  intro f
  induction f with
  | zero =>
    intro l h1 h2
    have : l = [] := List.length_eq_zero.mp (Nat.le_zero.mp h1)
    subst this
    simp [hasSub, leadsWith] at h2
  | succ f ih =>
    intro l h1 h2
    cases l with
    | nil => simp [hasSub, leadsWith] at h2
    | cons c cs =>
      simp only [replFuel]
      by_cases hc : leadsWith [a, a] (c :: cs) = true
      · rw [if_pos hc]
        have hle := repl2_len_le a f (cs.drop 1)
        obtain ⟨v, hv⟩ := (leadsWith_iff _ _).mp hc
        have hcs : cs.length = v.length + 1 := by
          have := congrArg List.length hv
          simp at this
          omega
        simp only [List.length_append, List.length_cons, List.length_nil,
          List.length_drop] at *
        norm_num at hle ⊢
        omega
      · rw [if_neg hc]
        have hsub : hasSub [a, a] cs = true := by
          simp only [hasSub, Bool.or_eq_true] at h2
          rcases h2 with h | h
          · exact absurd h hc
          · exact h
        have := ih cs (by simp only [List.length_cons] at h1; omega) hsub
        simp only [List.length_cons]
        omega

/-- The collapse pass introduces no new characters. -/
theorem repl2_subset (a : Char) :
    ∀ f l c, c ∈ replFuel [a, a] [a] f l → c ∈ l := by
  intro f
  induction f with
  | zero => intro l c h; exact h
  | succ f ih =>
    intro l c h
    cases l with
    | nil => exact h
    | cons x xs =>
      simp only [replFuel] at h
      by_cases hc : leadsWith [a, a] (x :: xs) = true
      · rw [if_pos hc] at h
        obtain ⟨v, hv⟩ := (leadsWith_iff _ _).mp hc
        have hx : x = a := by
          simp only [List.cons_append, List.cons.injEq] at hv
          exact hv.1
        rcases List.mem_append.mp h with h1 | h1
        · rw [List.mem_singleton.mp h1, ← hx]
          exact List.mem_cons_self x xs
        · exact List.mem_cons_of_mem x (List.mem_of_mem_drop (ih _ c h1))
      · rw [if_neg hc] at h
        rcases List.mem_cons.mp h with h1 | h1
        · exact h1 ▸ List.mem_cons_self x xs
        · exact List.mem_cons_of_mem x (ih _ c h1)

/-- With fuel covering the length, the collapse loop removes every doubled
occurrence. -/
theorem collapse2_noSub (a : Char) :
    ∀ f l, l.length ≤ f → hasSub [a, a] (collapseFuel [a, a] [a] f l) = false := by
  intro f
  induction f with
  | zero =>
    intro l h
    have : l = [] := List.length_eq_zero.mp (Nat.le_zero.mp h)
    subst this
    simp [collapseFuel, hasSub, leadsWith]
  | succ f ih =>
    intro l h
    simp only [collapseFuel]
    by_cases hc : hasSub [a, a] l = true
    · rw [if_pos hc]
      apply ih
      have := repl2_len_lt a l.length l (le_refl _) hc
      show (replFuel [a, a] [a] l.length l).length ≤ f
      omega
    · rw [if_neg hc]
      rw [Bool.not_eq_true] at hc
      exact hc

/-- The collapse loop introduces no new characters. -/
theorem collapse2_subset (a : Char) :
    ∀ f l c, c ∈ collapseFuel [a, a] [a] f l → c ∈ l := by
  intro f
  induction f with
  | zero => intro l c h; exact h
  | succ f ih =>
    intro l c h
    simp only [collapseFuel] at h
    by_cases hc : hasSub [a, a] l = true
    · rw [if_pos hc] at h
      exact repl2_subset a l.length l c (ih _ c h)
    · rw [if_neg hc] at h
      exact h

/-- Without the doubled character the collapse loop is the identity. -/
theorem collapse2_id (a : Char) (f : Nat) (l : List Char)
    (h : hasSub [a, a] l = false) : collapseFuel [a, a] [a] f l = l := by
  cases f with
  | zero => rfl
  | succ f =>
    simp only [collapseFuel]
    rw [if_neg (by simp [h])]

/-- Head shape of a collapse pass: empty, the collapse character, or the
original head. -/
theorem repl2_head (b : Char) :
    ∀ f l, replFuel [b, b] [b] f l = [] ∨
      (∃ t, replFuel [b, b] [b] f l = b :: t) ∨
      (∃ c cs t, l = c :: cs ∧ replFuel [b, b] [b] f l = c :: t) := by
  intro f
  induction f with
  | zero =>
    intro l
    cases l with
    | nil => exact Or.inl rfl
    | cons c cs => exact Or.inr (Or.inr ⟨c, cs, cs, rfl, rfl⟩)
  | succ f ih =>
    intro l
    cases l with
    | nil => exact Or.inl rfl
    | cons c cs =>
      simp only [replFuel]
      by_cases hc : leadsWith [b, b] (c :: cs) = true
      · rw [if_pos hc]
        exact Or.inr (Or.inl ⟨replFuel [b, b] [b] f (cs.drop 1), rfl⟩)
      · rw [if_neg hc]
        exact Or.inr (Or.inr ⟨c, cs, replFuel [b, b] [b] f cs, rfl, rfl⟩)

/-- Collapsing `b` doubles cannot create an `a` double (`a ≠ b`). -/
theorem repl2_preserve (a b : Char) (hab : a ≠ b) :
    ∀ f l, hasSub [a, a] l = false →
      hasSub [a, a] (replFuel [b, b] [b] f l) = false := by
  intro f
  induction f with
  | zero => intro l h; exact h
  | succ f ih =>
    intro l h
    cases l with
    | nil => exact h
    | cons c cs =>
      have hsubcs : hasSub [a, a] cs = false := by
        simp only [hasSub, Bool.or_eq_false_iff] at h
        exact h.2
      simp only [replFuel]
      by_cases hc : leadsWith [b, b] (c :: cs) = true
      · rw [if_pos hc]
        have hR := ih (cs.drop 1) (hasSub_drop _ cs 1 hsubcs)
        show hasSub [a, a] ([b] ++ replFuel [b, b] [b] f (cs.drop 1)) = false
        simp only [List.singleton_append, hasSub, Bool.or_eq_false_iff]
        exact ⟨by simp [leadsWith, hab], hR⟩
      · rw [if_neg hc]
        have hR := ih cs hsubcs
        simp only [hasSub, Bool.or_eq_false_iff]
        refine ⟨?_, hR⟩
        by_cases hca : a = c
        · subst hca
          rcases repl2_head b f cs with hE | ⟨t, ht⟩ | ⟨c2, cs2, t, hcc, ht⟩
          · rw [hE]
            simp [leadsWith]
          · rw [ht]
            simp [leadsWith, hab]
          · rw [ht]
            by_cases hac2 : a = c2
            · exfalso
              rw [hcc, ← hac2] at h
              simp [hasSub, leadsWith] at h
            · simp [leadsWith, hac2]
        · simp [leadsWith, hca]

/-- The collapse loop for `b` doubles cannot create an `a` double. -/
theorem collapse2_preserve (a b : Char) (hab : a ≠ b) :
    ∀ f l, hasSub [a, a] l = false →
      hasSub [a, a] (collapseFuel [b, b] [b] f l) = false := by
  intro f
  induction f with
  | zero => intro l h; exact h
  | succ f ih =>
    intro l h
    simp only [collapseFuel]
    by_cases hc : hasSub [b, b] l = true
    · rw [if_pos hc]
      exact ih _ (repl2_preserve a b hab l.length l h)
    · rw [if_neg hc]
      exact h

/-! ## Character classes, identities and stage subsets (for C6) -/

/-- The only whitespace character surviving the filename filter is the
space. -/
theorem fileAllowed_space {c : Char} (h1 : fileAllowed c = true)
    (h2 : goIsSpace c = true) : c = ' ' := by
  simp only [goIsSpace, Bool.or_eq_true, decide_eq_true_eq] at h2
  rcases h2 with ((((((h | h) | h) | h) | h) | h) | h) | h
  · exact h
  · exact absurd (h ▸ h1) (by decide)
  · exact absurd (h ▸ h1) (by decide)
  · exact absurd (h ▸ h1) (by decide)
  · exact absurd (h ▸ h1) (by decide)
  · exact absurd (h ▸ h1) (by decide)
  · exact absurd (h ▸ h1) (by decide)
  · exact absurd (h ▸ h1) (by decide)

/-- The only whitespace character surviving the category filter is the
space. -/
theorem catAllowed_space {c : Char} (h1 : catAllowed c = true)
    (h2 : goIsSpace c = true) : c = ' ' := by
  simp only [goIsSpace, Bool.or_eq_true, decide_eq_true_eq] at h2
  rcases h2 with ((((((h | h) | h) | h) | h) | h) | h) | h
  · exact h
  · exact absurd (h ▸ h1) (by decide)
  · exact absurd (h ▸ h1) (by decide)
  · exact absurd (h ▸ h1) (by decide)
  · exact absurd (h ▸ h1) (by decide)
  · exact absurd (h ▸ h1) (by decide)
  · exact absurd (h ▸ h1) (by decide)
  · exact absurd (h ▸ h1) (by decide)

/-- `contains` agrees with membership on character lists. -/
theorem contains_iff_mem (cut : List Char) (c : Char) :
    cut.contains c = true ↔ c ∈ cut := by
  induction cut with
  | nil => simp
  | cons x xs ih =>
    simp only [List.contains_cons, Bool.or_eq_true, beq_iff_eq, List.mem_cons, ih]

/-- A head failing the predicate stops `dropWhile` immediately. -/
theorem dropWhile_id (p : Char → Bool) (l : List Char)
    (h : ∀ c, l.head? = some c → p c = false) : l.dropWhile p = l := by
  cases l with
  | nil => rfl
  | cons c cs =>
    rw [List.dropWhile_cons, if_neg]
    simp [h c rfl]

/-- A last element failing the predicate stops `dropTrailWhile`. -/
theorem dropTrailWhile_id (p : Char → Bool) (l : List Char)
    (h : ∀ c, l.getLast? = some c → p c = false) : dropTrailWhile p l = l := by
  rw [dropTrailWhile, dropWhile_id, List.reverse_reverse]
  intro c hc
  apply h
  rw [← List.head?_reverse]
  exact hc

/-- `trimSpace` is the identity on lists with non-space edges. -/
theorem trimSpace_id (l : List Char)
    (hh : ∀ c, l.head? = some c → goIsSpace c = false)
    (hl : ∀ c, l.getLast? = some c → goIsSpace c = false) : trimSpace l = l := by
  rw [trimSpace, dropWhile_id _ _ hh, dropTrailWhile_id _ _ hl]

/-- `trimCut` is the identity on lists whose edges avoid the cutset. -/
theorem trimCut_id (cut l : List Char)
    (hh : ∀ c, l.head? = some c → cut.contains c = false)
    (hl : ∀ c, l.getLast? = some c → cut.contains c = false) : trimCut cut l = l := by
  rw [trimCut, dropWhile_id _ _ hh, dropTrailWhile_id _ _ hl]

/-- `trimSpace` keeps only original characters. -/
theorem trimSpace_subset (l : List Char) :
    ∀ c, c ∈ trimSpace l → c ∈ l := by
  intro c hc
  obtain ⟨n, hn⟩ := dropTrailWhile_eq_take goIsSpace (l.dropWhile goIsSpace)
  rw [trimSpace, hn] at hc
  obtain ⟨m, hm⟩ := dropWhile_eq_drop goIsSpace l
  rw [hm] at hc
  exact List.drop_subset m l (List.take_subset n _ hc)

/-- `trimCut` keeps only original characters. -/
theorem trimCut_subset (cut l : List Char) :
    ∀ c, c ∈ trimCut cut l → c ∈ l := by
  intro c hc
  obtain ⟨n, hn⟩ :=
    dropTrailWhile_eq_take (fun c => cut.contains c) (l.dropWhile (fun c => cut.contains c))
  rw [trimCut, hn] at hc
  obtain ⟨m, hm⟩ := dropWhile_eq_drop (fun c => cut.contains c) l
  rw [hm] at hc
  exact List.drop_subset m l (List.take_subset n _ hc)

/-- `trimCut` preserves absence of a pattern. -/
theorem trimCut_noSub (pat cut l : List Char) (h : hasSub pat l = false) :
    hasSub pat (trimCut cut l) = false := by
  obtain ⟨n, hn⟩ :=
    dropTrailWhile_eq_take (fun c => cut.contains c) (l.dropWhile (fun c => cut.contains c))
  obtain ⟨m, hm⟩ := dropWhile_eq_drop (fun c => cut.contains c) l
  rw [trimCut, hn, hm]
  exact hasSub_take pat _ n (hasSub_drop pat l m h)

/-- The head surviving `trimCut` is outside the cutset. -/
theorem trimCut_head (cut l : List Char) (c : Char)
    (h : (trimCut cut l).head? = some c) : cut.contains c = false := by
  obtain ⟨n, hn⟩ :=
    dropTrailWhile_eq_take (fun c => cut.contains c) (l.dropWhile (fun c => cut.contains c))
  rw [trimCut, hn] at h
  exact head_dropWhile_not _ l c (head_take _ n c h)

/-- The last element surviving `trimCut` is outside the cutset. -/
theorem trimCut_last (cut l : List Char) (c : Char)
    (h : (trimCut cut l).getLast? = some c) : cut.contains c = false := by
  exact getLast_dropTrailWhile_not _ _ c h

/-- The builder filter yields only allowed characters (filename case). -/
theorem buildF_allowed (l : List Char) :
    ∀ c ∈ l.map (fun r => if fileAllowed r then r else '_'), fileAllowed c = true := by
  intro c hc
  obtain ⟨r, _, hr⟩ := List.mem_map.mp hc
  by_cases h : fileAllowed r = true
  · rw [if_pos h] at hr
    exact hr ▸ h
  · rw [if_neg h] at hr
    rw [← hr]
    decide

/-- The builder filter yields only allowed characters (category case). -/
theorem buildC_allowed (l : List Char) :
    ∀ c ∈ l.map (fun r => if catAllowed r then r else '_'), catAllowed c = true := by
  intro c hc
  obtain ⟨r, _, hr⟩ := List.mem_map.mp hc
  by_cases h : catAllowed r = true
  · rw [if_pos h] at hr
    exact hr ▸ h
  · rw [if_neg h] at hr
    rw [← hr]
    decide

/-- A single-character replacement without an occurrence is the identity. -/
theorem replaceAll_single_id (a b : Char) (l : List Char) (h : a ∉ l) :
    replaceAll l [a] [b] = l := by
  show replFuel [a] [b] l.length l = l
  rw [replFuel_single a b l.length l (le_refl _)]
  have hcg : ∀ c ∈ l, (if c = a then b else c) = c := by
    intro c hc
    apply if_neg
    intro he
    subst he
    exact h hc
  calc l.map (fun c => if c = a then b else c) = l.map id := List.map_congr_left hcg
    _ = l := List.map_id l

/-- The builder filter is the identity on allowed characters (filename). -/
theorem build_idF (l : List Char) (h : ∀ c ∈ l, fileAllowed c = true) :
    l.map (fun r => if fileAllowed r then r else '_') = l := by
  have hcg : ∀ c ∈ l, (if fileAllowed c then c else '_') = c :=
    fun c hc => if_pos (h c hc)
  calc l.map (fun r => if fileAllowed r then r else '_') = l.map id := List.map_congr_left hcg
    _ = l := List.map_id l

/-- The builder filter is the identity on allowed characters (category). -/
theorem build_idC (l : List Char) (h : ∀ c ∈ l, catAllowed c = true) :
    l.map (fun r => if catAllowed r then r else '_') = l := by
  have hcg : ∀ c ∈ l, (if catAllowed c then c else '_') = c :=
    fun c hc => if_pos (h c hc)
  calc l.map (fun r => if catAllowed r then r else '_') = l.map id := List.map_congr_left hcg
    _ = l := List.map_id l

/-- Characters named by `head?` belong to the list. -/
theorem mem_of_head (l : List Char) (c : Char) (h : l.head? = some c) : c ∈ l := by
  cases l with
  | nil => simp at h
  | cons x xs =>
    simp only [List.head?_cons, Option.some.injEq] at h
    exact h ▸ List.mem_cons_self x xs

/-- Characters named by `getLast?` belong to the list. -/
theorem mem_of_getLast (l : List Char) (c : Char) (h : l.getLast? = some c) : c ∈ l := by
  rw [← List.head?_reverse] at h
  have := mem_of_head _ _ h
  exact (List.mem_reverse).mp this

/-- `String.mk` of a string's data is that string. -/
theorem string_mk_data (s : String) : String.mk s.data = s := by
  cases s
  rfl

/-! ## Canonical form of sanitized strings (for C6) -/

/-- The tail of `SanitizeFilename` (trim, collapse, trim, fallback) always
produces a canonical list. -/
theorem canonF_of_pipeline (built : List Char)
    (hb : ∀ c ∈ built, fileAllowed c = true) :
    canonF (if trimCut ['.', ' ', '_'] (collapseAll (trimSpace built) ['_', '_'] ['_']) = []
        then ("unnamed" : String)
        else String.mk (trimCut ['.', ' ', '_']
          (collapseAll (trimSpace built) ['_', '_'] ['_']))).data := by
  by_cases hE :
      trimCut ['.', ' ', '_'] (collapseAll (trimSpace built) ['_', '_'] ['_']) = []
  · rw [if_pos hE]
    refine ⟨by decide, by decide, ?_, ?_, by decide⟩
    · intro c hc
      have hcu : c = 'u' := by
        rw [show (("unnamed" : String).data.head? = some 'u') from rfl] at hc
        exact (Option.some.injEq _ _ ▸ hc).symm ▸ rfl
      subst hcu
      decide
    · intro c hc
      have hcd : c = 'd' := by
        rw [show (("unnamed" : String).data.getLast? = some 'd') from rfl] at hc
        cases hc
        rfl
      subst hcd
      decide
  · rw [if_neg hE]
    show canonF (trimCut ['.', ' ', '_'] (collapseAll (trimSpace built) ['_', '_'] ['_']))
    have hcolsub : hasSub ['_', '_']
        (collapseAll (trimSpace built) ['_', '_'] ['_']) = false :=
      collapse2_noSub '_' (trimSpace built).length (trimSpace built) (le_refl _)
    refine ⟨?_, trimCut_noSub _ _ _ hcolsub, ?_, ?_, hE⟩
    · intro c hc
      have h1 := trimCut_subset _ _ c hc
      have h2 := collapse2_subset '_' (trimSpace built).length (trimSpace built) c h1
      exact hb c (trimSpace_subset built c h2)
    · intro c hc hm
      have := trimCut_head _ _ c hc
      rw [(contains_iff_mem _ c).mpr hm] at this
      exact absurd this (by simp)
    · intro c hc hm
      have := trimCut_last _ _ c hc
      rw [(contains_iff_mem _ c).mpr hm] at this
      exact absurd this (by simp)

/-- Every `SanitizeFilename` output is canonical. -/
theorem sanitizeFilename_canonData (s : String) : canonF (SanitizeFilename s).data := by
  simp only [SanitizeFilename]
  exact canonF_of_pipeline _ (buildF_allowed _)

/-- The tail of `SanitizeCategory` always produces a canonical list. -/
theorem canonC_of_pipeline (built : List Char)
    (hb : ∀ c ∈ built, catAllowed c = true) :
    canonC (if trimCut ['.', ' ', '_', '/'] (collapseAll
          (collapseAll (trimSpace built) ['_', '_'] ['_']) ['/', '/'] ['/']) = []
        then ("unnamed" : String)
        else String.mk (trimCut ['.', ' ', '_', '/'] (collapseAll
          (collapseAll (trimSpace built) ['_', '_'] ['_']) ['/', '/'] ['/']))).data := by
  by_cases hE : trimCut ['.', ' ', '_', '/'] (collapseAll
      (collapseAll (trimSpace built) ['_', '_'] ['_']) ['/', '/'] ['/']) = []
  · rw [if_pos hE]
    refine ⟨by decide, by decide, by decide, ?_, ?_, by decide⟩
    · intro c hc
      have hcu : c = 'u' := by
        rw [show (("unnamed" : String).data.head? = some 'u') from rfl] at hc
        cases hc
        rfl
      subst hcu
      decide
    · intro c hc
      have hcd : c = 'd' := by
        rw [show (("unnamed" : String).data.getLast? = some 'd') from rfl] at hc
        cases hc
        rfl
      subst hcd
      decide
  · rw [if_neg hE]
    show canonC (trimCut ['.', ' ', '_', '/'] (collapseAll
      (collapseAll (trimSpace built) ['_', '_'] ['_']) ['/', '/'] ['/']))
    have hcol1 : hasSub ['_', '_']
        (collapseAll (trimSpace built) ['_', '_'] ['_']) = false :=
      collapse2_noSub '_' (trimSpace built).length (trimSpace built) (le_refl _)
    have hcol2u : hasSub ['_', '_'] (collapseAll
        (collapseAll (trimSpace built) ['_', '_'] ['_']) ['/', '/'] ['/']) = false :=
      collapse2_preserve '_' '/' (by decide)
        (collapseAll (trimSpace built) ['_', '_'] ['_']).length _ hcol1
    have hcol2s : hasSub ['/', '/'] (collapseAll
        (collapseAll (trimSpace built) ['_', '_'] ['_']) ['/', '/'] ['/']) = false :=
      collapse2_noSub '/' (collapseAll (trimSpace built) ['_', '_'] ['_']).length _
        (le_refl _)
    refine ⟨?_, trimCut_noSub _ _ _ hcol2u, trimCut_noSub _ _ _ hcol2s, ?_, ?_, hE⟩
    · intro c hc
      have h1 := trimCut_subset _ _ c hc
      have h2 := collapse2_subset '/'
        (collapseAll (trimSpace built) ['_', '_'] ['_']).length _ c h1
      have h3 := collapse2_subset '_' (trimSpace built).length (trimSpace built) c h2
      exact hb c (trimSpace_subset built c h3)
    · intro c hc hm
      have := trimCut_head _ _ c hc
      rw [(contains_iff_mem _ c).mpr hm] at this
      exact absurd this (by simp)
    · intro c hc hm
      have := trimCut_last _ _ c hc
      rw [(contains_iff_mem _ c).mpr hm] at this
      exact absurd this (by simp)

/-- Every `SanitizeCategory` output is canonical. -/
theorem sanitizeCategory_canonData (s : String) : canonC (SanitizeCategory s).data := by
  simp only [SanitizeCategory]
  exact canonC_of_pipeline _ (buildC_allowed _)

/-- `SanitizeFilename` is the identity on canonical strings. -/
theorem sanitizeFilename_id_of_canon (l : List Char) (h : canonF l) :
    SanitizeFilename (String.mk l) = String.mk l := by
  obtain ⟨hchars, hnosub, hhead, hlast, hne⟩ := h
  have r1 : ∀ a : Char, fileAllowed a = false → replaceAll l [a] ['_'] = l := by
    intro a ha
    apply replaceAll_single_id
    intro hm
    rw [hchars a hm] at ha
    exact absurd ha (by simp)
  have hts : trimSpace l = l := by
    apply trimSpace_id
    · intro c hc
      by_contra hsp
      rw [Bool.not_eq_false] at hsp
      have hcl := fileAllowed_space (hchars c (mem_of_head l c hc)) hsp
      apply hhead c hc
      rw [hcl]
      decide
    · intro c hc
      by_contra hsp
      rw [Bool.not_eq_false] at hsp
      have hcl := fileAllowed_space (hchars c (mem_of_getLast l c hc)) hsp
      apply hlast c hc
      rw [hcl]
      decide
  have hcol : collapseAll l ['_', '_'] ['_'] = l := collapse2_id '_' l.length l hnosub
  have htc : trimCut ['.', ' ', '_'] l = l := by
    apply trimCut_id
    · intro c hc
      by_contra hcon
      rw [Bool.not_eq_false, contains_iff_mem] at hcon
      exact hhead c hc hcon
    · intro c hc
      by_contra hcon
      rw [Bool.not_eq_false, contains_iff_mem] at hcon
      exact hlast c hc hcon
  show SanitizeFilename (String.mk l) = String.mk l
  simp only [SanitizeFilename]
  rw [r1 '/' (by decide), r1 backslashCh (by decide), r1 ':' (by decide),
    r1 '*' (by decide), r1 '?' (by decide), r1 quoteCh (by decide),
    r1 '<' (by decide), r1 '>' (by decide), r1 '|' (by decide)]
  rw [build_idF l hchars, hts, hcol, htc, if_neg hne]

/-- `SanitizeCategory` is the identity on canonical strings. -/
theorem sanitizeCategory_id_of_canon (l : List Char) (h : canonC l) :
    SanitizeCategory (String.mk l) = String.mk l := by
  obtain ⟨hchars, hnosubU, hnosubS, hhead, hlast, hne⟩ := h
  have r1 : ∀ a : Char, catAllowed a = false → replaceAll l [a] ['_'] = l := by
    intro a ha
    apply replaceAll_single_id
    intro hm
    rw [hchars a hm] at ha
    exact absurd ha (by simp)
  have hts : trimSpace l = l := by
    apply trimSpace_id
    · intro c hc
      by_contra hsp
      rw [Bool.not_eq_false] at hsp
      have hcl := catAllowed_space (hchars c (mem_of_head l c hc)) hsp
      apply hhead c hc
      rw [hcl]
      decide
    · intro c hc
      by_contra hsp
      rw [Bool.not_eq_false] at hsp
      have hcl := catAllowed_space (hchars c (mem_of_getLast l c hc)) hsp
      apply hlast c hc
      rw [hcl]
      decide
  have hcolU : collapseAll l ['_', '_'] ['_'] = l := collapse2_id '_' l.length l hnosubU
  have hcolS : collapseAll l ['/', '/'] ['/'] = l := collapse2_id '/' l.length l hnosubS
  have htc : trimCut ['.', ' ', '_', '/'] l = l := by
    apply trimCut_id
    · intro c hc
      by_contra hcon
      rw [Bool.not_eq_false, contains_iff_mem] at hcon
      exact hhead c hc hcon
    · intro c hc
      by_contra hcon
      rw [Bool.not_eq_false, contains_iff_mem] at hcon
      exact hlast c hc hcon
  show SanitizeCategory (String.mk l) = String.mk l
  simp only [SanitizeCategory]
  rw [r1 backslashCh (by decide), r1 ':' (by decide),
    r1 '*' (by decide), r1 '?' (by decide), r1 quoteCh (by decide),
    r1 '<' (by decide), r1 '>' (by decide), r1 '|' (by decide)]
  rw [build_idC l hchars, hts, hcolU, hcolS, htc, if_neg hne]

set_option maxHeartbeats 1000000 in
/-- The spec's worked sanitization example. -/
theorem sanitizeFilename_example :
    SanitizeFilename "Programming Languages / ANSI C" = "Programming Languages _ ANSI C" := by
  decide

set_option maxHeartbeats 1000000 in
/-- The empty string maps to the filename fallback literal. -/
theorem sanitizeFilename_empty : SanitizeFilename "" = "unnamed" := by decide

set_option maxHeartbeats 1000000 in
/-- The empty string maps to the category fallback literal. -/
theorem sanitizeCategory_empty : SanitizeCategory "" = "unnamed" := by decide

set_option maxHeartbeats 800000 in
/-- C6 (confirmed): both sanitizers are idempotent; filename outputs
consist only of the allowed characters (category outputs additionally may
contain the slash); outputs never start or end with dot, space or
underscore; doubled underscores (and, for categories, doubled slashes) are
collapsed away; the spec's example sanitizes as stated; and the empty
string maps to the fallback literal. -/
theorem C6_sanitize (s : String) :
    SanitizeFilename (SanitizeFilename s) = SanitizeFilename s ∧
    SanitizeCategory (SanitizeCategory s) = SanitizeCategory s ∧
    (∀ c ∈ (SanitizeFilename s).data, fileAllowed c = true) ∧
    (∀ c ∈ (SanitizeCategory s).data, catAllowed c = true) ∧
    (∀ c, (SanitizeFilename s).data.head? = some c → c ∉ ['.', ' ', '_']) ∧
    (∀ c, (SanitizeFilename s).data.getLast? = some c → c ∉ ['.', ' ', '_']) ∧
    (∀ c, (SanitizeCategory s).data.head? = some c → c ∉ ['.', ' ', '_']) ∧
    (∀ c, (SanitizeCategory s).data.getLast? = some c → c ∉ ['.', ' ', '_']) ∧
    hasSub ['_', '_'] (SanitizeFilename s).data = false ∧
    hasSub ['_', '_'] (SanitizeCategory s).data = false ∧
    hasSub ['/', '/'] (SanitizeCategory s).data = false ∧
    SanitizeFilename "Programming Languages / ANSI C" = "Programming Languages _ ANSI C" ∧
    SanitizeFilename "" = "unnamed" ∧
    SanitizeCategory "" = "unnamed" := by
  have hF := sanitizeFilename_canonData s
  have hC := sanitizeCategory_canonData s
  have hidF : SanitizeFilename (SanitizeFilename s) = SanitizeFilename s := by
    have := sanitizeFilename_id_of_canon (SanitizeFilename s).data hF
    rwa [string_mk_data] at this
  have hidC : SanitizeCategory (SanitizeCategory s) = SanitizeCategory s := by
    have := sanitizeCategory_id_of_canon (SanitizeCategory s).data hC
    rwa [string_mk_data] at this
  obtain ⟨f1, f2, f3, f4, _⟩ := hF
  obtain ⟨c1, c2, c3, c4, c5, _⟩ := hC
  refine ⟨hidF, hidC, f1, c1, f3, f4, ?_, ?_, f2, c2, c3,
    sanitizeFilename_example, sanitizeFilename_empty, sanitizeCategory_empty⟩
  · intro c hc hm
    apply c4 c hc
    simp only [List.mem_cons, List.not_mem_nil, or_false] at hm ⊢
    rcases hm with h | h | h
    · exact Or.inl h
    · exact Or.inr (Or.inl h)
    · exact Or.inr (Or.inr (Or.inl h))
  · intro c hc hm
    apply c5 c hc
    simp only [List.mem_cons, List.not_mem_nil, or_false] at hm ⊢
    rcases hm with h | h | h
    · exact Or.inl h
    · exact Or.inr (Or.inl h)
    · exact Or.inr (Or.inr (Or.inl h))

/-- C6 witness: the theorem applied at the spec's example and the empty
string, with the edge-condition hypothesis discharged on the concrete
output. -/
theorem C6_sanitize_witness :
    ('P' : Char) ∉ ['.', ' ', '_'] ∧ SanitizeFilename "" = "unnamed" :=
  ⟨(C6_sanitize "Programming Languages / ANSI C").2.2.2.2.1 'P' (by decide),
   (C6_sanitize "").2.2.2.2.2.2.2.2.2.2.2.2.1⟩

/-! ## Decode lemmas (for C1 and C5) -/

/-- Sanitized filenames are never empty (empty input falls back to the
literal). -/
theorem sanitizeFilename_ne_empty (s : String) : SanitizeFilename s ≠ "" := by
  have h := sanitizeFilename_canonData s
  intro hcon
  apply h.2.2.2.2
  rw [hcon]

/-- Sanitized categories are never empty. -/
theorem sanitizeCategory_ne_empty (s : String) : SanitizeCategory s ≠ "" := by
  have h := sanitizeCategory_canonData s
  intro hcon
  apply h.2.2.2.2.2
  rw [hcon]

/-- `contains` agrees with membership on string lists. -/
theorem scontains_iff_mem (l : List String) (a : String) :
    l.contains a = true ↔ a ∈ l := by
  induction l with
  | nil => simp
  | cons x xs ih =>
    simp only [List.contains_cons, Bool.or_eq_true, beq_iff_eq, List.mem_cons, ih]

/-- The exact decimal is positive exactly when its mantissa is. -/
theorem JNum.toRat_pos (n : JNum) : 0 < n.toRat ↔ 0 < n.mantissa := by
  unfold JNum.toRat
  have h10 : (0 : ℚ) < (10 : ℚ) ^ n.exp10 := zpow_pos (by norm_num) _
  constructor
  · intro h
    by_contra hm
    push_neg at hm
    have hcast : (n.mantissa : ℚ) ≤ 0 := by exact_mod_cast hm
    nlinarith
  · intro h
    have hcast : (0 : ℚ) < (n.mantissa : ℚ) := by exact_mod_cast h
    exact mul_pos hcast h10

/-- The exact decimal is nonpositive exactly when its mantissa is — the
sign test the Go code performs on the `float64` value. -/
theorem JNum.toRat_nonpos (n : JNum) : n.toRat ≤ 0 ↔ n.mantissa ≤ 0 := by
  rw [← not_lt, ← not_lt, not_iff_not]
  exact JNum.toRat_pos n

/-- Assignments to other fields keep `category` unchanged. -/
theorem assignField_cat (acc : AnalysisResult) (tag : FieldTag) (v : JValue)
    (acc2 : AnalysisResult) (h : assignField acc tag v = .ok acc2)
    (ht : tag ≠ FieldTag.cat) : acc2.category = acc.category := by
  cases tag with
  | cat => exact absurd rfl ht
  | ttl =>
    cases v <;> simp only [assignField] at h <;>
      first
        | exact Except.noConfusion h
        | (cases h; rfl)
  | score =>
    cases v <;> simp only [assignField] at h <;>
      first
        | exact Except.noConfusion h
        | (cases h; rfl)

/-- Assignments to other fields keep `title` unchanged. -/
theorem assignField_ttl (acc : AnalysisResult) (tag : FieldTag) (v : JValue)
    (acc2 : AnalysisResult) (h : assignField acc tag v = .ok acc2)
    (ht : tag ≠ FieldTag.ttl) : acc2.title = acc.title := by
  cases tag with
  | ttl => exact absurd rfl ht
  | cat =>
    cases v <;> simp only [assignField] at h <;>
      first
        | exact Except.noConfusion h
        | (cases h; rfl)
  | score =>
    cases v <;> simp only [assignField] at h <;>
      first
        | exact Except.noConfusion h
        | (cases h; rfl)

/-- Assignments to other fields keep the confidence unchanged. -/
theorem assignField_score (acc : AnalysisResult) (tag : FieldTag) (v : JValue)
    (acc2 : AnalysisResult) (h : assignField acc tag v = .ok acc2)
    (ht : tag ≠ FieldTag.score) : acc2.confidenceScore = acc.confidenceScore := by
  cases tag with
  | score => exact absurd rfl ht
  | cat =>
    cases v <;> simp only [assignField] at h <;>
      first
        | exact Except.noConfusion h
        | (cases h; rfl)
  | ttl =>
    cases v <;> simp only [assignField] at h <;>
      first
        | exact Except.noConfusion h
        | (cases h; rfl)

/-- A successful strict decode visits only known keys. -/
theorem goDecodeFields_known (r : AnalysisResult) :
    ∀ fs acc, goDecodeFields acc fs = .ok r → ∀ p ∈ fs, fieldFor p.1 ≠ none := by
  intro fs
  induction fs with
  | nil =>
    intro acc _ p hp
    simp at hp
  | cons kv rest ih =>
    intro acc h p hp
    obtain ⟨k, v⟩ := kv
    rcases hf : fieldFor k with _ | tag
    · simp only [goDecodeFields, hf] at h
      exact absurd h (by simp)
    · simp only [goDecodeFields, hf] at h
      rcases ha : assignField acc tag v with e | acc2
      · simp only [ha] at h
        exact absurd h (by simp)
      · simp only [ha] at h
        rcases List.mem_cons.mp hp with heq | hmem
        · subst heq
          simp [hf]
        · exact ih _ h p hmem

/-- Without a category-resolving key the category field keeps its previous
value. -/
theorem goDecodeFields_cat_none (r : AnalysisResult) :
    ∀ fs acc, (∀ p ∈ fs, fieldFor p.1 ≠ some FieldTag.cat) →
      goDecodeFields acc fs = .ok r → r.category = acc.category := by
  intro fs
  induction fs with
  | nil =>
    intro acc _ h
    simp only [goDecodeFields] at h
    cases h
    rfl
  | cons kv rest ih =>
    intro acc hno h
    obtain ⟨k, v⟩ := kv
    have hk : fieldFor k ≠ some FieldTag.cat := hno (k, v) (List.mem_cons_self _ _)
    have hrest : ∀ p ∈ rest, fieldFor p.1 ≠ some FieldTag.cat :=
      fun p hp => hno p (List.mem_cons_of_mem _ hp)
    rcases hf : fieldFor k with _ | tag
    · simp only [goDecodeFields, hf] at h
      exact absurd h (by simp)
    · have ht : tag ≠ FieldTag.cat := fun hh => hk (hh ▸ hf)
      simp only [goDecodeFields, hf] at h
      rcases ha : assignField acc tag v with e | acc2
      · simp only [ha] at h
        exact absurd h (by simp)
      · simp only [ha] at h
        exact (ih _ hrest h).trans (assignField_cat acc tag v acc2 ha ht)

/-- Without a title-resolving key the title field keeps its previous
value. -/
theorem goDecodeFields_ttl_none (r : AnalysisResult) :
    ∀ fs acc, (∀ p ∈ fs, fieldFor p.1 ≠ some FieldTag.ttl) →
      goDecodeFields acc fs = .ok r → r.title = acc.title := by
  intro fs
  induction fs with
  | nil =>
    intro acc _ h
    simp only [goDecodeFields] at h
    cases h
    rfl
  | cons kv rest ih =>
    intro acc hno h
    obtain ⟨k, v⟩ := kv
    have hk : fieldFor k ≠ some FieldTag.ttl := hno (k, v) (List.mem_cons_self _ _)
    have hrest : ∀ p ∈ rest, fieldFor p.1 ≠ some FieldTag.ttl :=
      fun p hp => hno p (List.mem_cons_of_mem _ hp)
    rcases hf : fieldFor k with _ | tag
    · simp only [goDecodeFields, hf] at h
      exact absurd h (by simp)
    · have ht : tag ≠ FieldTag.ttl := fun hh => hk (hh ▸ hf)
      simp only [goDecodeFields, hf] at h
      rcases ha : assignField acc tag v with e | acc2
      · simp only [ha] at h
        exact absurd h (by simp)
      · simp only [ha] at h
        exact (ih _ hrest h).trans (assignField_ttl acc tag v acc2 ha ht)

/-- Without a confidence-resolving key the confidence field keeps its
previous value. -/
theorem goDecodeFields_score_none (r : AnalysisResult) :
    ∀ fs acc, (∀ p ∈ fs, fieldFor p.1 ≠ some FieldTag.score) →
      goDecodeFields acc fs = .ok r → r.confidenceScore = acc.confidenceScore := by
  intro fs
  induction fs with
  | nil =>
    intro acc _ h
    simp only [goDecodeFields] at h
    cases h
    rfl
  | cons kv rest ih =>
    intro acc hno h
    obtain ⟨k, v⟩ := kv
    have hk : fieldFor k ≠ some FieldTag.score := hno (k, v) (List.mem_cons_self _ _)
    have hrest : ∀ p ∈ rest, fieldFor p.1 ≠ some FieldTag.score :=
      fun p hp => hno p (List.mem_cons_of_mem _ hp)
    rcases hf : fieldFor k with _ | tag
    · simp only [goDecodeFields, hf] at h
      exact absurd h (by simp)
    · have ht : tag ≠ FieldTag.score := fun hh => hk (hh ▸ hf)
      simp only [goDecodeFields, hf] at h
      rcases ha : assignField acc tag v with e | acc2
      · simp only [ha] at h
        exact absurd h (by simp)
      · simp only [ha] at h
        exact (ih _ hrest h).trans (assignField_score acc tag v acc2 ha ht)

section

attribute [local irreducible] SanitizeCategory SanitizeFilename

set_option maxHeartbeats 1000000 in
/-- Characterization of every successful `parseAndValidate`: the cleaned
reply parses as exactly one JSON object followed by nothing, its keys all
resolve to the three struct fields with each of the three present, the
decoded raw values pass the emptiness, sign and registry checks, and the
returned result is the sanitized raw result. -/
theorem parseAndValidate_ok (cats : List String) (content : String)
    (a : AnalysisResult) (h : parseAndValidate cats content = .ok a) :
    ∃ fs rest raw,
      jparseTop (cleanJSON content).data = some (.obj fs, rest) ∧
      skipWs rest = [] ∧
      goDecodeFields zeroResult fs = .ok raw ∧
      (∀ p ∈ fs, fieldFor p.1 ≠ none) ∧
      keyFor fs .cat ∧ keyFor fs .ttl ∧ keyFor fs .score ∧
      raw.category ≠ "" ∧ raw.title ≠ "" ∧
      0 < raw.confidenceScore.toRat ∧
      cats.contains raw.category = true ∧
      a = { category := SanitizeCategory raw.category,
            title := SanitizeFilename raw.title,
            confidenceScore := raw.confidenceScore } := by
  unfold parseAndValidate at h
  split at h
  · exact Except.noConfusion h
  · rename_i result hd
    by_cases h1 : result.category = ""
    · rw [if_pos h1] at h
      exact Except.noConfusion h
    · rw [if_neg h1] at h
      by_cases h2 : result.title = ""
      · rw [if_pos h2] at h
        exact Except.noConfusion h
      · rw [if_neg h2] at h
        by_cases h3 : result.confidenceScore.mantissa ≤ 0
        · rw [if_pos h3] at h
          exact Except.noConfusion h
        · rw [if_neg h3] at h
          by_cases h4 : cats.contains result.category = true
          · rw [if_pos h4] at h
            unfold decodeStrict at hd
            split at hd
            · exact Except.noConfusion hd
            · rename_i vr v rest hpt
              split at hd
              · exact Except.noConfusion hd
              · rename_i raw hg
                split at hd
                · rename_i hws
                  have hraw : raw = result := by
                    cases hd
                    rfl
                  subst hraw
                  cases v with
                  | null =>
                    rw [show goDecodeValue JValue.null = .ok zeroResult from rfl] at hg
                    cases hg
                    exact absurd rfl h1
                  | obj fs =>
                    rw [show goDecodeValue (JValue.obj fs) =
                      goDecodeFields zeroResult fs from rfl] at hg
                    refine ⟨fs, rest, raw, hpt, hws, hg,
                      goDecodeFields_known raw fs zeroResult hg, ?_, ?_, ?_,
                      h1, h2, ?_, h4, ?_⟩
                    · by_contra hno
                      rw [keyFor] at hno
                      push_neg at hno
                      exact h1 (goDecodeFields_cat_none raw fs zeroResult hno hg)
                    · by_contra hno
                      rw [keyFor] at hno
                      push_neg at hno
                      exact h2 (goDecodeFields_ttl_none raw fs zeroResult hno hg)
                    · by_contra hno
                      rw [keyFor] at hno
                      push_neg at hno
                      have hz := goDecodeFields_score_none raw fs zeroResult hno hg
                      rw [hz] at h3
                      exact h3 (le_refl 0)
                    · rw [JNum.toRat_pos]
                      omega
                    · cases h
                      rfl
                  | bool b =>
                    rw [show goDecodeValue (JValue.bool b) = Except.error
                      "json: cannot unmarshal value into AnalysisResult" from rfl] at hg
                    exact Except.noConfusion hg
                  | num n =>
                    rw [show goDecodeValue (JValue.num n) = Except.error
                      "json: cannot unmarshal value into AnalysisResult" from rfl] at hg
                    exact Except.noConfusion hg
                  | str sv =>
                    rw [show goDecodeValue (JValue.str sv) = Except.error
                      "json: cannot unmarshal value into AnalysisResult" from rfl] at hg
                    exact Except.noConfusion hg
                  | arr xs =>
                    rw [show goDecodeValue (JValue.arr xs) = Except.error
                      "json: cannot unmarshal value into AnalysisResult" from rfl] at hg
                    exact Except.noConfusion hg
                · exact Except.noConfusion hd
          · rw [if_neg h4] at h
            exact Except.noConfusion h

end


/-! ### Concrete parse-and-validate vectors for C1 and C5 -/

/-- A minimal valid three-field reply. -/
def pvMinimal : String :=
  "\x7b\"category\": \"Personal\", \"title\": \"Diary\", \"confidence_score\": 0.95\x7d"

/-- `pvMinimal` wrapped in a markdown code fence. -/
def pvFenced : String :=
  "```json\n\x7b\"category\": \"Personal\", \"title\": \"Diary\", \"confidence_score\": 0.95\x7d\n```"

/-- `pvMinimal` followed by trailing bytes after the closing brace. -/
def pvTrailing : String :=
  "\x7b\"category\": \"Personal\", \"title\": \"Diary\", \"confidence_score\": 0.95\x7d trailing bytes"

/-- The decoded and sanitized result of `pvMinimal`. -/
def pvMinimalRes : AnalysisResult :=
  { category := "Personal", title := "Diary",
    confidenceScore := { mantissa := 95, exp10 := -2 } }

/-- Replies with each defect the spec enumerates: a missing required
field, an extra field, a non-member or case-mismatched category, a
nonpositive score, and malformed JSON. -/
def pvRejects : List String :=
  [ "\x7b\"title\": \"T\", \"confidence_score\": 0.5\x7d",
    "\x7b\"category\": \"Personal\", \"confidence_score\": 0.5\x7d",
    "\x7b\"category\": \"Personal\", \"title\": \"T\"\x7d",
    "\x7b\"category\": \"Personal\", \"title\": \"T\", \"confidence_score\": 0.5, \"author\": \"Me\"\x7d",
    "\x7b\"category\": \"Unknown\", \"title\": \"T\", \"confidence_score\": 0.5\x7d",
    "\x7b\"category\": \"personal\", \"title\": \"T\", \"confidence_score\": 0.5\x7d",
    "\x7b\"category\": \"Personal\", \"title\": \"T\", \"confidence_score\": 0.0\x7d",
    "\x7b\"category\": \"Personal\", \"title\": \"T\", \"confidence_score\": -0.3\x7d",
    "\x7b\"category\": \"Personal\", \"title\": \"T\", \"confidence_score\": 0.5",
    "\x7b\"category\": \"Personal\", \"title\": \"T\", \"confidence_score\": 0.5,\x7d",
    "\x7bcategory: \"Personal\", \"title\": \"T\", \"confidence_score\": 0.5\x7d",
    "\x7b\"category\": 3, \"title\": \"T\", \"confidence_score\": 0.5\x7d" ]

set_option maxHeartbeats 1000000 in
/-- The minimal reply is accepted. -/
theorem pvMinimal_eval :
    parseAndValidate DefaultCategories pvMinimal = .ok pvMinimalRes := by decide

set_option maxHeartbeats 1000000 in
/-- The fenced reply is accepted with the same result. -/
theorem pvFenced_eval :
    parseAndValidate DefaultCategories pvFenced = .ok pvMinimalRes := by decide

set_option maxHeartbeats 1000000 in
/-- Trailing bytes after the closing brace are accepted. -/
theorem pvTrailing_eval :
    parseAndValidate DefaultCategories pvTrailing = .ok pvMinimalRes := by decide

set_option maxHeartbeats 4000000 in
/-- Every enumerated defective reply is rejected. -/
theorem pvRejects_eval :
    ∀ r ∈ pvRejects, (parseAndValidate DefaultCategories r).isOk = false := by decide

/-- A registry whose only member sanitizes to a different name. -/
def pvColonCats : List String := ["A:B"]

/-- A reply naming that member verbatim. -/
def pvColonReply : String :=
  "\x7b\"category\": \"A:B\", \"title\": \"T\", \"confidence_score\": 0.5\x7d"

section

attribute [local irreducible] SanitizeCategory SanitizeFilename

/-- **C1**: every successful `parseAndValidate` decodes the cleaned reply as
one JSON object whose keys all resolve to the three struct fields, with all
three present, no unknown field, a registry category and a positive score;
the minimal valid reply and its fenced variant are accepted and the
enumerated defective replies are rejected. Contrary to the spec, bytes
trailing the closing brace do not cause rejection: `cleanJSON` cuts the
reply at the last closing brace, so `pvTrailing` is accepted. -/
theorem C1_parse_and_validate :
    (∀ (cats : List String) (content : String) (a : AnalysisResult),
        parseAndValidate cats content = .ok a →
        ∃ fs rest raw,
          jparseTop (cleanJSON content).data = some (.obj fs, rest) ∧
          skipWs rest = [] ∧
          goDecodeFields zeroResult fs = .ok raw ∧
          keysKnown fs ∧
          keyFor fs .cat ∧ keyFor fs .ttl ∧ keyFor fs .score ∧
          cats.contains raw.category = true ∧
          0 < raw.confidenceScore.toRat) ∧
    parseAndValidate DefaultCategories pvMinimal = .ok pvMinimalRes ∧
    parseAndValidate DefaultCategories pvFenced = .ok pvMinimalRes ∧
    (∀ r ∈ pvRejects, (parseAndValidate DefaultCategories r).isOk = false) ∧
    parseAndValidate DefaultCategories pvTrailing = .ok pvMinimalRes := by
  refine ⟨?_, pvMinimal_eval, pvFenced_eval, pvRejects_eval, pvTrailing_eval⟩
  intro cats content a h
  obtain ⟨fs, rest, raw, hpt, hws, hg, hkn, h5, h6, h7, _, _, hpos, hmem, _⟩ :=
    parseAndValidate_ok cats content a h
  exact ⟨fs, rest, raw, hpt, hws, hg, hkn, h5, h6, h7, hmem, hpos⟩

/-- **C5**: every result a successful `parseAndValidate` produces has a
category that is the sanitization of some registry member, a non-empty
title and a strictly positive confidence score. Contrary to the spec, the
category itself need not be a registry member: sanitization runs after the
membership check, so a member containing a disallowed character is altered
(see the counterexample). -/
theorem C5_result_invariant (cats : List String) (content : String)
    (a : AnalysisResult) (h : parseAndValidate cats content = .ok a) :
    (∃ c, cats.contains c = true ∧ a.category = SanitizeCategory c) ∧
    a.title ≠ "" ∧ 0 < a.confidenceScore.toRat := by
  obtain ⟨fs, rest, raw, hpt, hws, hg, hkn, h5, h6, h7, h8, h9, hpos, hmem, ha⟩ :=
    parseAndValidate_ok cats content a h
  refine ⟨⟨raw.category, hmem, ?_⟩, ?_, ?_⟩
  · rw [ha]
  · rw [ha]
    exact sanitizeFilename_ne_empty raw.title
  · rw [ha]
    exact hpos

end

set_option maxHeartbeats 1000000 in
/-- **C1** counterexample: a reply with bytes after the closing brace is
accepted, because `cleanJSON` drops everything after the last brace. -/
theorem C1_parse_and_validate_counterexample :
    parseAndValidate ["Personal"]
      "\x7b\"category\": \"Personal\", \"title\": \"Diary\", \"confidence_score\": 0.95\x7d not json" =
      .ok { category := "Personal", title := "Diary",
            confidenceScore := { mantissa := 95, exp10 := -2 } } := by decide

set_option maxHeartbeats 1000000 in
/-- **C1** witness: the success characterization at the minimal reply. -/
theorem C1_parse_and_validate_witness :
    ∃ fs rest raw,
      jparseTop (cleanJSON pvMinimal).data = some (.obj fs, rest) ∧
      skipWs rest = [] ∧
      goDecodeFields zeroResult fs = .ok raw ∧
      keysKnown fs ∧
      keyFor fs .cat ∧ keyFor fs .ttl ∧ keyFor fs .score ∧
      DefaultCategories.contains raw.category = true ∧
      0 < raw.confidenceScore.toRat :=
  C1_parse_and_validate.1 DefaultCategories pvMinimal pvMinimalRes (by decide)

set_option maxHeartbeats 1000000 in
/-- **C5** counterexample: with registry `["A:B"]` the accepted result's
category `"A_B"` is not a registry member. -/
theorem C5_result_invariant_counterexample :
    parseAndValidate pvColonCats pvColonReply =
      .ok { category := "A_B", title := "T",
            confidenceScore := { mantissa := 5, exp10 := -1 } } ∧
    "A_B" ∉ pvColonCats := by decide

set_option maxHeartbeats 1000000 in
/-- **C5** witness: the invariant at the minimal reply. -/
theorem C5_result_invariant_witness :
    (∃ c, DefaultCategories.contains c = true ∧
      pvMinimalRes.category = SanitizeCategory c) ∧
    pvMinimalRes.title ≠ "" ∧ 0 < pvMinimalRes.confidenceScore.toRat :=
  C5_result_invariant DefaultCategories pvMinimal pvMinimalRes (by decide)

end DocsOrganiser
